import Mathlib

/-!
# A depth-bounded web crawler (`main.go`)

A shallow embedding of the crawler's link extraction (`LinkReader`, `NewLink`,
`Link.Valid`, `Link.String`) and of its traversal driver (`recurDownloader`,
`downloader`), followed by theorems about them.

Conventions of the embedding.

* A Go `string` is modelled by the list of its runes (`List Char`); all strings
  handled are taken to be valid UTF-8, on which byte-wise substring search and
  rune-wise substring search agree.
* A Go `int` is modelled by an `Int`; the one arithmetic operation of the
  program, `depth+1`, wraps at 64 bits (`addInt`).
* The HTML tokenizer and the HTTP transport are libraries outside the program.
  A page is the list of tokens the tokenizer hands out, after which (or at the
  first `ErrorToken` in it) the tokenizer reports `ErrorToken`; the transport is
  a function from a url to an error or a response.
* `MaxDepth` is a package-level variable: the functions that read it take its
  value as the argument `maxDepth`; the program sets it to `2`.
-/

namespace Crawler

/-! ## Library functions used by the program -/

/-- Go `unicode.IsSpace`: the Latin-1 white space runes and the runes of the
Unicode `White_Space` property beyond Latin-1. -/
def isSpace (r : Char) : Bool :=
  let n := r.toNat
  if n ≤ 0xFF then
    n = 0x09 || n = 0x0A || n = 0x0B || n = 0x0C || n = 0x0D || n = 0x20 || n = 0x85 || n = 0xA0
  else
    n = 0x1680 || (0x2000 ≤ n && n ≤ 0x200A) || n = 0x2028 || n = 0x2029 || n = 0x202F
      || n = 0x205F || n = 0x3000

/-- Go `strings.TrimSpace`: the string without its leading and trailing white
space runes. -/
def TrimSpace (s : List Char) : List Char :=
  ((s.dropWhile isSpace).reverse.dropWhile isSpace).reverse

/-- The rune-wise case mapping behind Go `strings.ToLower`. The ASCII capitals
go to their small letters; `U+0130` and `U+212A` are the two runes beyond ASCII
whose lower case is an ASCII letter (`i` and `k`). Every other rune beyond ASCII
has a lower case beyond ASCII and is left as it is: the program only searches
the lowered string for an ASCII word, which such a rune cannot be part of. -/
def toLowerRune (r : Char) : Char :=
  let n := r.toNat
  if 0x41 ≤ n ∧ n ≤ 0x5A then Char.ofNat (n + 0x20)
  else if n = 0x130 then 'i'
  else if n = 0x212A then 'k'
  else r

/-- Go `strings.ToLower`. -/
def ToLower (s : List Char) : List Char :=
  s.map toLowerRune

/-- Go `strings.Contains`: `substr` occurs in `s` as a contiguous block. -/
def Contains : List Char → List Char → Bool
  | [], substr => substr.isEmpty
  | c :: s, substr => substr.isPrefixOf (c :: s) || Contains s substr

/-- Go `strings.Repeat` of a one-rune string; a negative count panics (`none`). -/
def Repeat (r : Char) (count : Int) : Option (List Char) :=
  if count < 0 then none else some (List.replicate count.toNat r)

/-- The verb `%d` of Go `fmt` on an `int`: a minus sign for a negative number,
then the decimal digits. -/
def formatInt (n : Int) : List Char :=
  if n < 0 then '-' :: Nat.toDigits 10 n.natAbs else Nat.toDigits 10 n.toNat

/-- Go `depth+1` on a 64-bit `int`: the sum wraps around. -/
def addInt (a b : Int) : Int :=
  (a + b + 2 ^ 63) % 2 ^ 64 - 2 ^ 63

/-- Whether a number is a value of a 64-bit `int`. -/
def isInt64 (n : Int) : Prop :=
  -(2 ^ 63) ≤ n ∧ n < 2 ^ 63

/-! ## Tokens (`golang.org/x/net/html`) -/

/-- The token types of `html.TokenType`. -/
inductive TokenType where
  | ErrorToken
  | TextToken
  | StartTagToken
  | EndTagToken
  | SelfClosingTagToken
  | CommentToken
  | DoctypeToken
  deriving DecidableEq, Repr

/-- An attribute of a tag, `html.Attribute`. -/
structure Attribute where
  Namespace : List Char
  Key : List Char
  Val : List Char
  deriving DecidableEq, Repr

/-- The interned tag names of `golang.org/x/net/html/atom`, by their code. -/
abbrev Atom := Nat

/-- The atom of the tag name `a`, `atom.A`. -/
def atom.A : Atom := 0x1

/-- A token, `html.Token`; the field `Type` is written `Typ`. -/
structure Token where
  Typ : TokenType
  DataAtom : Atom
  Data : List Char
  Attr : List Attribute
  deriving DecidableEq, Repr

/-! ## Links -/

/-- The struct `Link`. -/
structure Link where
  url : List Char
  text : List Char
  depth : Int
  deriving DecidableEq, Repr

/-- The struct `HttpError`. -/
structure HttpError where
  original : List Char
  deriving DecidableEq, Repr

/-- The initial value of the package variable `MaxDepth`. -/
def MaxDepth : Int := 2

/-- The method `Link.String`: `fmt.Sprintf("%s%s (%d) - %s", spacer, text, depth, url)`
with `spacer := strings.Repeat("\t", depth)`; `none` when `Repeat` panics. -/
def Link.String (self : Link) : Option (List Char) :=
  match Repeat '\t' self.depth with
  | none => none
  | some spacer =>
    some (spacer ++ self.text ++ [' ', '('] ++ formatInt self.depth ++ [')', ' ', '-', ' ']
      ++ self.url)

/-- The method `Link.Valid`. -/
def Link.Valid (maxDepth : Int) (self : Link) : Bool :=
  if self.depth ≥ maxDepth then false
  else if self.text.length = 0 then false
  else if self.url.length = 0 || Contains (ToLower self.url) "javascript".toList then false
  else true

/-- The method `HttpError.Error`. -/
def HttpError.Error (self : HttpError) : List Char :=
  self.original

/-- The loop of `NewLink` over the attributes of the tag: every attribute whose
key is `href` overwrites the url. -/
def NewLink.loop (link : Link) : List Attribute → Link
  | [] => link
  | a :: rest =>
    NewLink.loop (if a.Key = "href".toList then { link with url := TrimSpace a.Val } else link) rest

/-- The function `NewLink`. -/
def NewLink (tag : Token) (text : List Char) (depth : Int) : Link :=
  NewLink.loop { url := [], text := TrimSpace text, depth := depth } tag.Attr

/-! ## The link extractor -/

/-- The variables of the loop of `LinkReader`: the open anchor start tag
(`start`, `none` for `nil`), the text gathered so far and the links found. -/
structure LinkReader.State where
  start : Option Token
  text : List Char
  links : List Link
  deriving DecidableEq, Repr

/-- The variables of `LinkReader` before the first token. -/
def LinkReader.init : LinkReader.State :=
  { start := none, text := [], links := [] }

/-- One turn of the loop of `LinkReader` on a token that is not an
`ErrorToken`. The warning of an end tag without a start tag and the debug lines
go to the log and leave the variables as they are. -/
def LinkReader.step (maxDepth depth : Int) (st : LinkReader.State) (token : Token) :
    LinkReader.State :=
  let text :=
    if st.start.isSome && token.Typ = TokenType.TextToken then st.text ++ token.Data else st.text
  if token.DataAtom = atom.A then
    match token.Typ with
    | TokenType.StartTagToken =>
      if token.Attr.length > 0 then { start := some token, text := text, links := st.links }
      else { start := st.start, text := text, links := st.links }
    | TokenType.EndTagToken =>
      match st.start with
      | none => { start := none, text := text, links := st.links }
      | some tag =>
        let link := NewLink tag text depth
        { start := none, text := [],
          links := if link.Valid maxDepth then st.links ++ [link] else st.links }
    | _ => { start := st.start, text := text, links := st.links }
  else { start := st.start, text := text, links := st.links }

/-- The loop of `LinkReader`: it ends at the first `ErrorToken`, which the
tokenizer also reports once the page is used up. -/
def LinkReader.run (maxDepth depth : Int) : LinkReader.State → List Token → LinkReader.State
  | st, [] => st
  | st, token :: page =>
    if token.Typ = TokenType.ErrorToken then st
    else LinkReader.run maxDepth depth (LinkReader.step maxDepth depth st token) page

/-- The function `LinkReader` on the tokens of the response body. -/
def LinkReader (maxDepth : Int) (page : List Token) (depth : Int) : List Link :=
  (LinkReader.run maxDepth depth LinkReader.init page).links

/-! ## The fetcher and the traversal driver -/

/-- What the program reads of an `http.Response`: the status code and the body,
as the tokens the tokenizer makes of it. -/
structure Response where
  StatusCode : Int
  Body : List Token
  deriving DecidableEq, Repr

/-- The values of Go `error` the program meets: an error of the transport, with
its message, and the `HttpError` of `downloader`. -/
inductive Err where
  | transport (msg : List Char)
  | http (e : HttpError)
  deriving DecidableEq, Repr

/-- The method `Error` of an error value. -/
def Err.Error : Err → List Char
  | Err.transport msg => msg
  | Err.http e => e.Error

/-- The function `downloader` over the transport `get` (`http.Get`): the
response when `err` is `nil`, the error otherwise. -/
def downloader (get : List Char → Except (List Char) Response) (url : List Char) :
    Except Err Response :=
  match get url with
  | Except.error msg => Except.error (Err.transport msg)
  | Except.ok resp =>
    if resp.StatusCode > 299 then
      Except.error (Err.http
        { original := "Error (".toList ++ formatInt resp.StatusCode ++ "): ".toList ++ url })
    else Except.ok resp

/-- What the program does that can be seen from outside, in order: a request
sent by `http.Get`, a line written by `fmt.Println`, an error written by
`log.Error`. -/
inductive Event where
  | fetch (url : List Char)
  | print (line : List Char)
  | logError (msg : List Char)
  deriving DecidableEq, Repr

/-- The line `fmt.Println(link)` writes: the result of `Link.String`, or the
text `fmt` puts in its place when `Link.String` panics. -/
def Println (link : Link) : List Char :=
  match link.String with
  | some s => s
  | none => "%!v(PANIC=String method: strings: negative Repeat count)".toList

/-- The loop of `recurDownloader` over the links of a page; `recur` is the
recursive call, `none` when it does not return. -/
def recurDownloader.loop (recur : List Char → Int → Option (List Event)) (maxDepth depth : Int) :
    List Link → Option (List Event)
  | [] => some []
  | link :: rest =>
    if addInt depth 1 < maxDepth then
      match recur link.url (addInt depth 1) with
      | none => none
      | some below =>
        match recurDownloader.loop recur maxDepth depth rest with
        | none => none
        | some after => some (Event.print (Println link) :: below ++ after)
    else
      match recurDownloader.loop recur maxDepth depth rest with
      | none => none
      | some after => some (Event.print (Println link) :: after)

/-- The function `recurDownloader` with a bound on the depth of the recursion:
`none` when the bound is used up before the call returns. -/
def recurDownloaderFuel (get : List Char → Except (List Char) Response) (maxDepth : Int) :
    Nat → List Char → Int → Option (List Event)
  | 0, _, _ => none
  | fuel + 1, url, depth =>
    match downloader get url with
    | Except.error err => some [Event.fetch url, Event.logError err.Error]
    | Except.ok page =>
      match recurDownloader.loop (recurDownloaderFuel get maxDepth fuel) maxDepth depth
          (LinkReader maxDepth page.Body depth) with
      | none => none
      | some evs => some (Event.fetch url :: evs)

/-- The function `recurDownloader`, with the bound `MaxDepth - depth + 1` on the
depth of the recursion; `recurDownloader_returns` shows that the call returns
under it and `recurDownloaderFuel_enough` that every larger bound gives the
same events. -/
def recurDownloader (get : List Char → Except (List Char) Response) (maxDepth : Int)
    (url : List Char) (depth : Int) : Option (List Event) :=
  recurDownloaderFuel get maxDepth ((maxDepth - depth).toNat + 1) url depth

/-- The lines written to standard output among the events. -/
def printed : List Event → List (List Char)
  | [] => []
  | Event.print line :: evs => line :: printed evs
  | _ :: evs => printed evs

/-! ## Definitions used to state the properties -/

/-- The href value of a tag, in the words of the specification: the value of
the last attribute of the tag whose key is `href`, the empty string when the
tag has none. -/
def hrefValue (tag : Token) : List Char :=
  match tag.Attr.reverse.find? (fun a => a.Key = "href".toList) with
  | some a => a.Val
  | none => []

/-- An anchor start tag `<a href="...">` with the one attribute `href`. -/
def anchorStart (href : List Char) : Token :=
  { Typ := TokenType.StartTagToken, DataAtom := atom.A, Data := ['a'],
    Attr := [{ Namespace := [], Key := "href".toList, Val := href }] }

/-- An anchor end tag. -/
def anchorEnd : Token :=
  { Typ := TokenType.EndTagToken, DataAtom := atom.A, Data := ['a'], Attr := [] }

/-- An anchor start tag without attributes. -/
def anchorBare : Token :=
  { Typ := TokenType.StartTagToken, DataAtom := atom.A, Data := ['a'], Attr := [] }

/-- A text token. -/
def textToken (data : List Char) : Token :=
  { Typ := TokenType.TextToken, DataAtom := 0, Data := data, Attr := [] }

/-- The start tag `<b>`, a tag whose atom is not `atom.A`. -/
def boldStart : Token :=
  { Typ := TokenType.StartTagToken, DataAtom := 0x101, Data := ['b'], Attr := [] }

/-- The end tag of `<b>`. -/
def boldEnd : Token :=
  { Typ := TokenType.EndTagToken, DataAtom := 0x101, Data := ['b'], Attr := [] }

/-- No token of the list is an `ErrorToken`. -/
def noError (p : List Token) : Prop :=
  ∀ t ∈ p, t.Typ ≠ TokenType.ErrorToken

instance (p : List Token) : Decidable (noError p) := by
  unfold noError; infer_instance

/-- The token is an anchor start tag. -/
def isAnchorStart (t : Token) : Prop :=
  t.Typ = TokenType.StartTagToken ∧ t.DataAtom = atom.A

instance (t : Token) : Decidable (isAnchorStart t) := by
  unfold isAnchorStart; infer_instance

/-- The token is an anchor end tag. -/
def isAnchorEnd (t : Token) : Prop :=
  t.Typ = TokenType.EndTagToken ∧ t.DataAtom = atom.A

instance (t : Token) : Decidable (isAnchorEnd t) := by
  unfold isAnchorEnd; infer_instance

/-- The string has no white space rune at its start and none at its end. -/
def isTrimmed (s : List Char) : Prop :=
  (∀ c, s.head? = some c → isSpace c = false) ∧ (∀ c, s.getLast? = some c → isSpace c = false)

/-- The data of the text tokens of a list, one after the other. -/
def textData : List Token → List Char
  | [] => []
  | t :: ts => if t.Typ = TokenType.TextToken then t.Data ++ textData ts else textData ts

/-- The end of the input as the tokenizer reports it. -/
def eofToken : Token :=
  { Typ := TokenType.ErrorToken, DataAtom := 0, Data := [], Attr := [] }

/-- The anchor start tag that is open at the end of a list of tokens read with
`tag` open: the last anchor start tag of the list with at least one attribute,
`tag` itself when the list has none. -/
def lastStart (tag : Token) : List Token → Token
  | [] => tag
  | t :: ts => if isAnchorStart t ∧ t.Attr ≠ [] then lastStart t ts else lastStart tag ts

/-- The links a candidate link adds to the result: itself when it is valid,
nothing otherwise. -/
def emit (maxDepth : Int) (link : Link) : List Link :=
  if link.Valid maxDepth then [link] else []

instance (n : Int) : Decidable (isInt64 n) := by
  unfold isInt64; infer_instance

/-- The lines written by a call that returned with the given events; no line
for a call that did not return. -/
def linesOf (r : Option (List Event)) : List (List Char) :=
  match r with
  | some evs => printed evs
  | none => []

/-- The lines of a depth-first walk in pre-order: for each link in turn its own
line, then, when `deeper` holds, the lines `below` gives for its url. -/
def preorder (below : List Char → List (List Char)) (deeper : Bool) :
    List Link → List (List Char)
  | [] => []
  | link :: rest =>
    (Println link :: (if deeper then below link.url else [])) ++ preorder below deeper rest

/-- A transport for a site of two pages: `/` holds the links `foo` to `/x` and
`bar` to `/y`, `/x` holds the link `zed` to `/z`; every other url fails. -/
def siteGet (url : List Char) : Except (List Char) Response :=
  if url = "/".toList then
    Except.ok { StatusCode := 200, Body :=
      [anchorStart "/x".toList, textToken "foo".toList, anchorEnd,
        anchorStart "/y".toList, textToken "bar".toList, anchorEnd] }
  else if url = "/x".toList then
    Except.ok { StatusCode := 200, Body :=
      [anchorStart "/z".toList, textToken "zed".toList, anchorEnd] }
  else Except.error "no such host".toList

/-- An event of the traversal together with what the event itself leaves out:
the call `recurDownloader(url, depth)` that sends a request, the link that
`fmt.Println` writes, the error that `log.Error` writes. -/
inductive Step where
  | call (url : List Char) (depth : Int)
  | print (link : Link)
  | fail (err : Err)
  deriving DecidableEq, Repr

/-- The event of a step. -/
def Step.event : Step → Event
  | Step.call url _ => Event.fetch url
  | Step.print link => Event.print (Println link)
  | Step.fail err => Event.logError err.Error

/-- The loop of `recurDownloader` once more, giving the step behind each event. -/
def recurDownloaderSteps.loop (recur : List Char → Int → Option (List Step))
    (maxDepth depth : Int) : List Link → Option (List Step)
  | [] => some []
  | link :: rest =>
    if addInt depth 1 < maxDepth then
      match recur link.url (addInt depth 1) with
      | none => none
      | some below =>
        match recurDownloaderSteps.loop recur maxDepth depth rest with
        | none => none
        | some after => some (Step.print link :: below ++ after)
    else
      match recurDownloaderSteps.loop recur maxDepth depth rest with
      | none => none
      | some after => some (Step.print link :: after)

/-- The function `recurDownloader` once more, giving the step behind each
event; `recurDownloaderSteps_event` shows that the events of these steps are
those of `recurDownloaderFuel`. -/
def recurDownloaderSteps (get : List Char → Except (List Char) Response) (maxDepth : Int) :
    Nat → List Char → Int → Option (List Step)
  | 0, _, _ => none
  | fuel + 1, url, depth =>
    match downloader get url with
    | Except.error err => some [Step.call url depth, Step.fail err]
    | Except.ok page =>
      match recurDownloaderSteps.loop (recurDownloaderSteps get maxDepth fuel) maxDepth depth
          (LinkReader maxDepth page.Body depth) with
      | none => none
      | some steps => some (Step.call url depth :: steps)

/-- The urls of the requests sent among the events, in order. -/
def fetches : List Event → List (List Char)
  | [] => []
  | Event.fetch url :: evs => url :: fetches evs
  | _ :: evs => fetches evs

/-- A transport for a site whose every page holds the one link `home` to `/`,
so that the pages link to each other in a cycle. -/
def cycleGet (_url : List Char) : Except (List Char) Response :=
  Except.ok { StatusCode := 200, Body :=
    [anchorStart "/".toList, textToken "home".toList, anchorEnd] }

/-- The tokens of a page before its first `ErrorToken`. -/
def beforeError : List Token → List Token
  | [] => []
  | t :: ts => if t.Typ = TokenType.ErrorToken then [] else t :: beforeError ts

/-- The number of anchor end tags in a list of tokens. -/
def countEnds (p : List Token) : Nat :=
  p.countP (fun t => decide (isAnchorEnd t))

/-- The number of anchor start tags with at least one attribute in a list of
tokens. -/
def countStarts (p : List Token) : Nat :=
  p.countP (fun t => decide (isAnchorStart t ∧ t.Attr ≠ []))

/-- One for an open anchor, zero for none. -/
def openCount (st : LinkReader.State) : Nat :=
  if st.start.isSome then 1 else 0

/-- A transport for a site whose every page holds two links, `left` to `/a` and
`right` to `/b`. -/
def treeGet (_url : List Char) : Except (List Char) Response :=
  Except.ok { StatusCode := 200, Body :=
    [anchorStart "/a".toList, textToken "left".toList, anchorEnd,
      anchorStart "/b".toList, textToken "right".toList, anchorEnd] }

/-- A transport that fails for every url. -/
def downGet (_url : List Char) : Except (List Char) Response :=
  Except.error "network is unreachable".toList

/-- The number of requests of a crawl that follows `b` links on every page for
`n` more levels: `1 + b + ... + b ^ n`. -/
def fetchBound (b : Nat) : Nat → Nat
  | 0 => 1
  | n + 1 => 1 + b * fetchBound b n

/-- The text that the turn of the loop of `LinkReader` on `token` gives to
`log.Warnf` (`Link End found without Start: %s`), `none` when the turn writes
no warning: the warning is written at an anchor end tag read while `start` is
`nil`. -/
def LinkReader.warning (st : LinkReader.State) (token : Token) : Option (List Char) :=
  let text :=
    if st.start.isSome && token.Typ = TokenType.TextToken then st.text ++ token.Data else st.text
  if token.DataAtom = atom.A then
    match token.Typ with
    | TokenType.EndTagToken =>
      match st.start with
      | none => some text
      | some _ => none
    | _ => none
  else none

/-- An anchor start tag with the given attributes. -/
def anchorWith (attrs : List Attribute) : Token :=
  { Typ := TokenType.StartTagToken, DataAtom := atom.A, Data := ['a'], Attr := attrs }

/-! ## Lemmas on the library functions -/

theorem Contains_iff (s substr : List Char) :
    Contains s substr = true ↔ substr <:+: s := by
  induction s with
  | nil => simp [Contains, List.infix_nil]
  | cons c s ih =>
    rw [Contains, Bool.or_eq_true, ih, List.infix_cons_iff, List.isPrefixOf_iff_prefix]

theorem TrimSpace_nil : TrimSpace [] = [] := by
  simp [TrimSpace]

theorem NewLink_loop_text (link : Link) (attrs : List Attribute) :
    (NewLink.loop link attrs).text = link.text := by
  induction attrs generalizing link with
  | nil => rfl
  | cons a rest ih =>
    rw [NewLink.loop, ih]
    split <;> rfl

theorem NewLink_loop_depth (link : Link) (attrs : List Attribute) :
    (NewLink.loop link attrs).depth = link.depth := by
  induction attrs generalizing link with
  | nil => rfl
  | cons a rest ih =>
    rw [NewLink.loop, ih]
    split <;> rfl

theorem NewLink_loop_url (link : Link) (attrs : List Attribute) :
    (NewLink.loop link attrs).url =
      match attrs.reverse.find? (fun a => a.Key = "href".toList) with
      | some a => TrimSpace a.Val
      | none => link.url := by
  induction attrs generalizing link with
  | nil => rfl
  | cons a rest ih =>
    rw [NewLink.loop, ih, List.reverse_cons, List.find?_append]
    cases h : rest.reverse.find? (fun a => a.Key = "href".toList) with
    | some b => simp
    | none =>
      by_cases hk : a.Key = ['h', 'r', 'e', 'f']
      · simp [hk]
      · simp [hk]

theorem NewLink_text (tag : Token) (text : List Char) (depth : Int) :
    (NewLink tag text depth).text = TrimSpace text := by
  rw [NewLink, NewLink_loop_text]

theorem NewLink_depth (tag : Token) (text : List Char) (depth : Int) :
    (NewLink tag text depth).depth = depth := by
  rw [NewLink, NewLink_loop_depth]

theorem NewLink_url (tag : Token) (text : List Char) (depth : Int) :
    (NewLink tag text depth).url = TrimSpace (hrefValue tag) := by
  rw [NewLink, NewLink_loop_url, hrefValue]
  cases tag.Attr.reverse.find? (fun a => a.Key = "href".toList) with
  | some b => rfl
  | none => exact TrimSpace_nil.symm

theorem Valid_iff (maxDepth : Int) (l : Link) :
    l.Valid maxDepth = true ↔
      l.depth < maxDepth ∧ l.text ≠ [] ∧ l.url ≠ [] ∧
        ¬ ("javascript".toList <:+: ToLower l.url) := by
  unfold Link.Valid
  rw [← Contains_iff]
  by_cases h1 : l.depth ≥ maxDepth
  · simp only [h1, if_true]
    constructor
    · intro h; cases h
    · rintro ⟨h, -⟩; omega
  · by_cases h2 : l.text = []
    · simp [h1, h2]
    · by_cases h3 : l.url = []
      · simp [h1, h2, h3]
      · have h1l : l.depth < maxDepth := by omega
        simp [h1, h1l, h2, h3, List.length_eq_zero]

/-! ## The validity of a candidate link -/

/-- C1: the candidate link built by `NewLink` is valid exactly when the depth is
below `MaxDepth`, the trimmed text is not empty, the trimmed href value is not
empty and the lower-cased trimmed href value does not contain `javascript`. A
url such as `http://example.com/javascript-guide` is rejected, and so is
`JavaScript:void(0)`; the link of `<a href=" /x "> Home </a>` at depth `0` is
accepted. -/
theorem NewLink_Valid_iff :
    (∀ (maxDepth : Int) (tag : Token) (text : List Char) (depth : Int),
      (NewLink tag text depth).Valid maxDepth = true ↔
        depth < maxDepth ∧ TrimSpace text ≠ [] ∧ TrimSpace (hrefValue tag) ≠ [] ∧
          ¬ ("javascript".toList <:+: ToLower (TrimSpace (hrefValue tag)))) ∧
    (∀ (maxDepth : Int) (tag : Token) (text : List Char) (depth : Int),
      hrefValue tag = "http://example.com/javascript-guide".toList →
        (NewLink tag text depth).Valid maxDepth = false) ∧
    (∀ (maxDepth : Int) (tag : Token) (text : List Char) (depth : Int),
      hrefValue tag = "JavaScript:void(0)".toList →
        (NewLink tag text depth).Valid maxDepth = false) ∧
    (NewLink (anchorStart " /x ".toList) " Home ".toList 0).Valid MaxDepth = true := by
  have main : ∀ (maxDepth : Int) (tag : Token) (text : List Char) (depth : Int),
      (NewLink tag text depth).Valid maxDepth = true ↔
        depth < maxDepth ∧ TrimSpace text ≠ [] ∧ TrimSpace (hrefValue tag) ≠ [] ∧
          ¬ ("javascript".toList <:+: ToLower (TrimSpace (hrefValue tag))) := by
    intro maxDepth tag text depth
    rw [Valid_iff, NewLink_depth, NewLink_text, NewLink_url]
  refine ⟨main, ?_, ?_, by decide⟩
  · intro maxDepth tag text depth h
    rw [Bool.eq_false_iff]
    intro hv
    rw [main, h] at hv
    exact hv.2.2.2 ((Contains_iff _ _).mp (by decide))
  · intro maxDepth tag text depth h
    rw [Bool.eq_false_iff]
    intro hv
    rw [main, h] at hv
    exact hv.2.2.2 ((Contains_iff _ _).mp (by decide))

theorem TrimSpace_isTrimmed (s : List Char) : isTrimmed (TrimSpace s) := by
  have hdef : TrimSpace s = (s.dropWhile isSpace).rdropWhile isSpace := rfl
  constructor
  · intro c hc
    have hne : TrimSpace s ≠ [] := by
      intro h; rw [h] at hc; simp at hc
    have hpre : TrimSpace s <+: s.dropWhile isSpace := by
      rw [hdef]; exact List.rdropWhile_prefix _ _
    have hne2 : s.dropWhile isSpace ≠ [] := by
      intro h; rw [h] at hpre; exact hne (List.prefix_nil.mp hpre)
    have h1 := hpre.head hne
    have h2 := List.head_dropWhile_not isSpace s hne2
    rw [List.head?_eq_head hne] at hc
    have : c = (TrimSpace s).head hne := by simpa using hc.symm
    rw [this, h1]; exact h2
  · intro c hc
    have hne : (s.dropWhile isSpace).rdropWhile isSpace ≠ [] := by
      intro h; rw [hdef, h] at hc; simp at hc
    have h2 := List.rdropWhile_last_not isSpace (s.dropWhile isSpace) hne
    rw [hdef, List.getLast?_eq_getLast _ hne] at hc
    have : c = ((s.dropWhile isSpace).rdropWhile isSpace).getLast hne := by simpa using hc.symm
    rw [this]; simpa using h2

/-! ## One turn of the loop of `LinkReader`, by the kind of token -/

theorem step_start (maxDepth depth : Int) (st : LinkReader.State) (t : Token)
    (ht : isAnchorStart t) (ha : t.Attr ≠ []) :
    LinkReader.step maxDepth depth st t =
      { start := some t, text := st.text, links := st.links } := by
  obtain ⟨h1, h2⟩ := ht
  have hl : t.Attr.length > 0 := List.length_pos.mpr ha
  simp [LinkReader.step, h1, h2, hl]

theorem step_bare (maxDepth depth : Int) (st : LinkReader.State) (t : Token)
    (ht : isAnchorStart t) (ha : t.Attr = []) :
    LinkReader.step maxDepth depth st t = st := by
  obtain ⟨h1, h2⟩ := ht
  simp [LinkReader.step, h1, h2, ha]

theorem step_end_open (maxDepth depth : Int) (st : LinkReader.State) (t tag : Token)
    (ht : isAnchorEnd t) (hs : st.start = some tag) :
    LinkReader.step maxDepth depth st t =
      { start := none, text := [],
        links := if (NewLink tag st.text depth).Valid maxDepth then
          st.links ++ [NewLink tag st.text depth] else st.links } := by
  obtain ⟨h1, h2⟩ := ht
  simp [LinkReader.step, h1, h2, hs]

theorem step_end_closed (maxDepth depth : Int) (st : LinkReader.State) (t : Token)
    (ht : isAnchorEnd t) (hs : st.start = none) :
    LinkReader.step maxDepth depth st t = st := by
  obtain ⟨h1, h2⟩ := ht
  cases st with
  | mk start text links =>
    simp only at hs
    subst hs
    simp [LinkReader.step, h1, h2]

theorem step_other (maxDepth depth : Int) (st : LinkReader.State) (t : Token)
    (h1 : ¬ isAnchorStart t) (h2 : ¬ isAnchorEnd t) :
    LinkReader.step maxDepth depth st t =
      { start := st.start,
        text := if st.start.isSome && t.Typ = TokenType.TextToken then st.text ++ t.Data
          else st.text,
        links := st.links } := by
  unfold isAnchorStart at h1
  unfold isAnchorEnd at h2
  unfold LinkReader.step
  by_cases ha : t.DataAtom = atom.A
  · simp only [ha, and_true] at h1 h2
    cases hty : t.Typ <;> simp_all
  · simp only [ha, if_false]

theorem step_links_mem (maxDepth depth : Int) (st : LinkReader.State) (token : Token) :
    ∀ l ∈ (LinkReader.step maxDepth depth st token).links,
      l ∈ st.links ∨ ∃ tag text, l = NewLink tag text depth ∧ l.Valid maxDepth = true := by
  intro l hl
  by_cases h1 : isAnchorStart token
  · by_cases ha : token.Attr = []
    · rw [step_bare _ _ _ _ h1 ha] at hl; exact Or.inl hl
    · rw [step_start _ _ _ _ h1 ha] at hl; exact Or.inl hl
  · by_cases h2 : isAnchorEnd token
    · cases hs : st.start with
      | none => rw [step_end_closed _ _ _ _ h2 hs] at hl; exact Or.inl hl
      | some tag =>
        rw [step_end_open _ _ _ _ tag h2 hs] at hl
        simp only at hl
        split at hl
        · rename_i hv
          rcases List.mem_append.mp hl with h | h
          · exact Or.inl h
          · rw [List.mem_singleton] at h
            exact Or.inr ⟨tag, st.text, h, h ▸ hv⟩
        · exact Or.inl hl
    · rw [step_other _ _ _ _ h1 h2] at hl; exact Or.inl hl

theorem run_links_mem (maxDepth depth : Int) (page : List Token) (st : LinkReader.State) :
    ∀ l ∈ (LinkReader.run maxDepth depth st page).links,
      l ∈ st.links ∨ ∃ tag text, l = NewLink tag text depth ∧ l.Valid maxDepth = true := by
  induction page generalizing st with
  | nil => intro l hl; exact Or.inl hl
  | cons token page ih =>
    intro l hl
    rw [LinkReader.run] at hl
    split at hl
    · exact Or.inl hl
    · rcases ih _ l hl with h | h
      · exact step_links_mem maxDepth depth st token l h
      · exact Or.inr h

theorem LinkReader_mem (maxDepth depth : Int) (page : List Token) :
    ∀ l ∈ LinkReader maxDepth page depth,
      ∃ tag text, l = NewLink tag text depth ∧ l.Valid maxDepth = true := by
  intro l hl
  rcases run_links_mem maxDepth depth page LinkReader.init l hl with h | h
  · simp [LinkReader.init] at h
  · exact h

theorem not_infix_of_ToLower (url w : List Char)
    (h : ¬ ("javascript".toList <:+: ToLower url)) (hw : ToLower w = "javascript".toList) :
    ¬ (w <:+: url) := by
  intro hin
  apply h
  rw [← hw]
  exact List.IsInfix.map toLowerRune hin

/-- C2: every link `LinkReader` returns at depth `d` has depth `d`, with
`d < MaxDepth`, a text and a url that are not empty, a url that does not contain
`javascript` in any letter case (neither lower-cased nor as any word whose
lower case is `javascript`), and a text and a url without leading or trailing
white space; so `LinkReader` returns no link when `d >= MaxDepth`. -/
theorem LinkReader_links_valid (maxDepth : Int) (page : List Token) (d : Int) :
    (∀ l ∈ LinkReader maxDepth page d,
      l.depth = d ∧ d < maxDepth ∧ l.text ≠ [] ∧ l.url ≠ [] ∧
        ¬ ("javascript".toList <:+: ToLower l.url) ∧
        (∀ w, ToLower w = "javascript".toList → ¬ (w <:+: l.url)) ∧
        isTrimmed l.text ∧ isTrimmed l.url) ∧
    (maxDepth ≤ d → LinkReader maxDepth page d = []) := by
  have main : ∀ l ∈ LinkReader maxDepth page d,
      l.depth = d ∧ d < maxDepth ∧ l.text ≠ [] ∧ l.url ≠ [] ∧
        ¬ ("javascript".toList <:+: ToLower l.url) ∧
        (∀ w, ToLower w = "javascript".toList → ¬ (w <:+: l.url)) ∧
        isTrimmed l.text ∧ isTrimmed l.url := by
    intro l hl
    obtain ⟨tag, text, rfl, hv⟩ := LinkReader_mem maxDepth d page l hl
    have hd := NewLink_depth tag text d
    obtain ⟨h1, h2, h3, h4⟩ := (Valid_iff maxDepth _).mp hv
    refine ⟨hd, hd ▸ h1, h2, h3, h4, fun w hw => not_infix_of_ToLower _ w h4 hw, ?_, ?_⟩
    · rw [NewLink_text]; exact TrimSpace_isTrimmed text
    · rw [NewLink_url]; exact TrimSpace_isTrimmed _
  refine ⟨main, fun hle => ?_⟩
  rw [List.eq_nil_iff_forall_not_mem]
  intro l hl
  have := (main l hl).2.1
  omega

/-! ## The loop of `LinkReader` on a page in two parts -/

theorem run_append (maxDepth depth : Int) (p s : List Token) (st : LinkReader.State)
    (hp : noError p) :
    LinkReader.run maxDepth depth st (p ++ s) =
      LinkReader.run maxDepth depth (LinkReader.run maxDepth depth st p) s := by
  induction p generalizing st with
  | nil => rfl
  | cons t p ih =>
    have ht : t.Typ ≠ TokenType.ErrorToken := hp t (List.mem_cons_self t p)
    have hp2 : noError p := fun x hx => hp x (List.mem_cons_of_mem t hx)
    rw [List.cons_append, LinkReader.run, LinkReader.run, if_neg ht, if_neg ht, ih _ hp2]

theorem run_append_of_error (maxDepth depth : Int) (p s : List Token) (st : LinkReader.State)
    (hp : ¬ noError p) :
    LinkReader.run maxDepth depth st (p ++ s) = LinkReader.run maxDepth depth st p := by
  induction p generalizing st with
  | nil => exact absurd (fun t ht => by cases ht) hp
  | cons t p ih =>
    rw [List.cons_append, LinkReader.run, LinkReader.run]
    by_cases ht : t.Typ = TokenType.ErrorToken
    · rw [if_pos ht, if_pos ht]
    · rw [if_neg ht, if_neg ht]
      apply ih
      intro hp2
      apply hp
      intro x hx
      rcases List.mem_cons.mp hx with rfl | h
      · exact ht
      · exact hp2 x h

theorem run_cons (maxDepth depth : Int) (t : Token) (s : List Token) (st : LinkReader.State)
    (ht : t.Typ ≠ TokenType.ErrorToken) :
    LinkReader.run maxDepth depth st (t :: s) =
      LinkReader.run maxDepth depth (LinkReader.step maxDepth depth st t) s := by
  rw [LinkReader.run, if_neg ht]

theorem isAnchorStart_ne_error (t : Token) (h : isAnchorStart t) :
    t.Typ ≠ TokenType.ErrorToken := by
  rw [h.1]; decide

theorem isAnchorEnd_ne_error (t : Token) (h : isAnchorEnd t) :
    t.Typ ≠ TokenType.ErrorToken := by
  rw [h.1]; decide

/-- The links found before a part of the page stay in front of those found in it. -/
theorem step_links_frame (maxDepth depth : Int) (start : Option Token) (text : List Char)
    (links : List Link) (t : Token) :
    LinkReader.step maxDepth depth { start := start, text := text, links := links } t =
      { start := (LinkReader.step maxDepth depth { start := start, text := text, links := [] } t).start,
        text := (LinkReader.step maxDepth depth { start := start, text := text, links := [] } t).text,
        links := links ++
          (LinkReader.step maxDepth depth { start := start, text := text, links := [] } t).links } := by
  by_cases h1 : isAnchorStart t
  · by_cases ha : t.Attr = []
    · simp [step_bare _ _ _ _ h1 ha]
    · simp [step_start _ _ _ _ h1 ha]
  · by_cases h2 : isAnchorEnd t
    · cases start with
      | none =>
        rw [step_end_closed maxDepth depth { start := none, text := text, links := links } t h2 rfl,
          step_end_closed maxDepth depth { start := none, text := text, links := [] } t h2 rfl]
        simp
      | some tag =>
        rw [step_end_open maxDepth depth { start := some tag, text := text, links := links } t tag
            h2 rfl,
          step_end_open maxDepth depth { start := some tag, text := text, links := [] } t tag h2 rfl]
        simp only
        split <;> simp
    · simp [step_other _ _ _ _ h1 h2]

theorem run_links_frame (maxDepth depth : Int) (page : List Token) (start : Option Token)
    (text : List Char) (links : List Link) :
    LinkReader.run maxDepth depth { start := start, text := text, links := links } page =
      { start := (LinkReader.run maxDepth depth { start := start, text := text, links := [] } page).start,
        text := (LinkReader.run maxDepth depth { start := start, text := text, links := [] } page).text,
        links := links ++
          (LinkReader.run maxDepth depth { start := start, text := text, links := [] } page).links } := by
  induction page generalizing start text links with
  | nil => simp [LinkReader.run]
  | cons t page ih =>
    rw [LinkReader.run, LinkReader.run]
    by_cases ht : t.Typ = TokenType.ErrorToken
    · simp [ht]
    · rw [if_neg ht, if_neg ht, step_links_frame]
      generalize LinkReader.step maxDepth depth { start := start, text := text, links := [] } t = st1
      rw [ih st1.start st1.text (links ++ st1.links)]
      conv_rhs => rw [show st1 = { start := st1.start, text := st1.text, links := st1.links } from rfl]
      rw [ih st1.start st1.text st1.links]
      simp

/-- The variables of the loop hold no text while no anchor is open. -/
theorem step_text_nil (maxDepth depth : Int) (st : LinkReader.State) (t : Token)
    (h : st.start = none → st.text = []) :
    (LinkReader.step maxDepth depth st t).start = none →
      (LinkReader.step maxDepth depth st t).text = [] := by
  by_cases h1 : isAnchorStart t
  · by_cases ha : t.Attr = []
    · rw [step_bare _ _ _ _ h1 ha]; exact h
    · rw [step_start _ _ _ _ h1 ha]; intro hs; cases hs
  · by_cases h2 : isAnchorEnd t
    · cases hs : st.start with
      | none => rw [step_end_closed _ _ _ _ h2 hs]; exact h
      | some tag => rw [step_end_open _ _ _ _ tag h2 hs]; intro _; rfl
    · rw [step_other _ _ _ _ h1 h2]
      intro hs
      simp only at hs
      simp [hs, h hs]

theorem run_text_nil (maxDepth depth : Int) (page : List Token) (st : LinkReader.State)
    (h : st.start = none → st.text = []) :
    (LinkReader.run maxDepth depth st page).start = none →
      (LinkReader.run maxDepth depth st page).text = [] := by
  induction page generalizing st with
  | nil => exact h
  | cons t page ih =>
    rw [LinkReader.run]
    split
    · exact h
    · exact ih _ (step_text_nil maxDepth depth st t h)

/-! ## The loop of `LinkReader` from an anchor start tag to its end tag -/

theorem NewLink_eq (tag : Token) (text : List Char) (depth : Int) :
    NewLink tag text depth =
      { url := TrimSpace (hrefValue tag), text := TrimSpace text, depth := depth } := by
  have h1 := NewLink_url tag text depth
  have h2 := NewLink_text tag text depth
  have h3 := NewLink_depth tag text depth
  cases h : NewLink tag text depth with
  | mk u t d =>
    rw [h] at h1 h2 h3
    simp only at h1 h2 h3
    rw [h1, h2, h3]

theorem lastStart_of_no_start (tag : Token) (middle : List Token)
    (hm : ∀ t ∈ middle, ¬ (isAnchorStart t ∧ t.Attr ≠ [])) : lastStart tag middle = tag := by
  induction middle with
  | nil => rfl
  | cons t ts ih =>
    rw [lastStart, if_neg (hm t (List.mem_cons_self t ts))]
    exact ih (fun x hx => hm x (List.mem_cons_of_mem t hx))

theorem run_open (maxDepth depth : Int) (middle : List Token) (tag : Token) (text : List Char)
    (links : List Link)
    (hm : ∀ t ∈ middle, ¬ isAnchorEnd t ∧ t.Typ ≠ TokenType.ErrorToken) :
    LinkReader.run maxDepth depth { start := some tag, text := text, links := links } middle =
      { start := some (lastStart tag middle), text := text ++ textData middle, links := links } := by
  induction middle generalizing tag text with
  | nil => simp [LinkReader.run, lastStart, textData]
  | cons t ts ih =>
    obtain ⟨hne, herr⟩ := hm t (List.mem_cons_self t ts)
    have hts : ∀ x ∈ ts, ¬ isAnchorEnd x ∧ x.Typ ≠ TokenType.ErrorToken :=
      fun x hx => hm x (List.mem_cons_of_mem t hx)
    rw [run_cons _ _ _ _ _ herr]
    by_cases h1 : isAnchorStart t
    · have hty : t.Typ ≠ TokenType.TextToken := by rw [h1.1]; decide
      by_cases ha : t.Attr = []
      · rw [step_bare _ _ _ _ h1 ha, ih tag text hts, lastStart, textData, if_neg hty,
          if_neg (fun h => h.2 ha)]
      · rw [step_start _ _ _ _ h1 ha, ih t text hts, lastStart, textData, if_neg hty,
          if_pos ⟨h1, ha⟩]
    · have hl : lastStart tag (t :: ts) = lastStart tag ts := by
        rw [lastStart, if_neg (fun h => h1 h.1)]
      rw [step_other _ _ _ _ h1 hne, hl, textData]
      simp only [Option.isSome_some, Bool.true_and, decide_eq_true_eq]
      by_cases hty : t.Typ = TokenType.TextToken
      · rw [if_pos hty, if_pos hty, ih tag _ hts, List.append_assoc]
      · rw [if_neg hty, if_neg hty, ih tag _ hts]

theorem LinkReader_append (maxDepth depth : Int) (p s : List Token) (hp : noError p) :
    LinkReader maxDepth (p ++ s) depth =
      (LinkReader.run maxDepth depth (LinkReader.run maxDepth depth LinkReader.init p) s).links := by
  rw [LinkReader, run_append _ _ _ _ _ hp]

theorem run_closed_links (maxDepth depth : Int) (page : List Token) (links : List Link) :
    (LinkReader.run maxDepth depth { start := none, text := [], links := links } page).links =
      links ++ LinkReader maxDepth page depth := by
  rw [run_links_frame]
  rfl

theorem LinkReader_segment (maxDepth depth : Int) (p middle rest : List Token) (tag e : Token)
    (hp : noError p) (htag : isAnchorStart tag) (ha : tag.Attr ≠ [])
    (hm : ∀ t ∈ middle, ¬ isAnchorEnd t ∧ t.Typ ≠ TokenType.ErrorToken) (he : isAnchorEnd e) :
    LinkReader maxDepth (p ++ tag :: (middle ++ e :: rest)) depth =
      LinkReader maxDepth p depth ++
        emit maxDepth (NewLink (lastStart tag middle)
          ((LinkReader.run maxDepth depth LinkReader.init p).text ++ textData middle) depth) ++
        LinkReader maxDepth rest depth := by
  rw [LinkReader_append _ _ _ _ hp, run_cons _ _ _ _ _ (isAnchorStart_ne_error tag htag),
    step_start _ _ _ _ htag ha,
    run_append _ _ _ _ _ (fun t ht => (hm t ht).2), run_open _ _ _ _ _ _ hm,
    run_cons _ _ _ _ _ (isAnchorEnd_ne_error e he),
    step_end_open _ _ _ _ (lastStart tag middle) he rfl, run_closed_links]
  simp only [emit, LinkReader]
  split <;> simp

theorem step_start_text (maxDepth depth : Int) (st : LinkReader.State) (t : Token)
    (ht : isAnchorStart t) : (LinkReader.step maxDepth depth st t).text = st.text := by
  by_cases ha : t.Attr = []
  · rw [step_bare _ _ _ _ ht ha]
  · rw [step_start _ _ _ _ ht ha]

theorem run_insert_end (maxDepth depth : Int) (p ts : List Token) (e : Token)
    (st : LinkReader.State) (he : isAnchorEnd e)
    (hclosed : (LinkReader.run maxDepth depth st p).start = none) :
    LinkReader.run maxDepth depth st (p ++ e :: ts) = LinkReader.run maxDepth depth st (p ++ ts) := by
  by_cases hp : noError p
  · rw [run_append _ _ _ _ _ hp, run_append _ _ _ _ _ hp,
      run_cons _ _ _ _ _ (isAnchorEnd_ne_error e he), step_end_closed _ _ _ _ he hclosed]
  · rw [run_append_of_error _ _ _ _ _ hp, run_append_of_error _ _ _ _ _ hp]

theorem run_insert_bare (maxDepth depth : Int) (p s : List Token) (t : Token)
    (st : LinkReader.State) (ht : isAnchorStart t) (ha : t.Attr = []) :
    LinkReader.run maxDepth depth st (p ++ t :: s) = LinkReader.run maxDepth depth st (p ++ s) := by
  by_cases hp : noError p
  · rw [run_append _ _ _ _ _ hp, run_append _ _ _ _ _ hp,
      run_cons _ _ _ _ _ (isAnchorStart_ne_error t ht), step_bare _ _ _ _ ht ha]
  · rw [run_append_of_error _ _ _ _ _ hp, run_append_of_error _ _ _ _ _ hp]

theorem step_end_cleared (maxDepth depth : Int) (st : LinkReader.State) (e : Token)
    (he : isAnchorEnd e) (h : st.start = none → st.text = []) :
    (LinkReader.step maxDepth depth st e).start = none ∧
      (LinkReader.step maxDepth depth st e).text = [] := by
  cases hs : st.start with
  | none => rw [step_end_closed _ _ _ _ he hs]; exact ⟨hs, h hs⟩
  | some tag => rw [step_end_open _ _ _ _ tag he hs]; exact ⟨rfl, rfl⟩

theorem run_end_cleared (maxDepth depth : Int) (p : List Token) (e : Token) (hp : noError p)
    (he : isAnchorEnd e) :
    (LinkReader.run maxDepth depth LinkReader.init (p ++ [e])).start = none ∧
      (LinkReader.run maxDepth depth LinkReader.init (p ++ [e])).text = [] := by
  rw [run_append _ _ _ _ _ hp, run_cons _ _ _ _ _ (isAnchorEnd_ne_error e he), LinkReader.run]
  exact step_end_cleared maxDepth depth _ e he
    (run_text_nil maxDepth depth p LinkReader.init (fun _ => rfl))

/-! ## The extraction of links -/

/-- C3: on a page made of an anchor start tag with at least one attribute, then
tokens among which there is no anchor start tag, no anchor end tag and no error
token, then an anchor end tag and the end of the input, `LinkReader` returns the
one link whose url is the trimmed href value of the start tag and whose text is
the trimmed concatenation of the data of the text tokens in between, when that
link is valid, and nothing otherwise. -/
theorem LinkReader_text_accumulation (maxDepth d : Int) (tag e eos : Token)
    (middle : List Token) (htag : isAnchorStart tag) (ha : tag.Attr ≠ [])
    (hm : ∀ t ∈ middle, ¬ isAnchorStart t ∧ ¬ isAnchorEnd t ∧ t.Typ ≠ TokenType.ErrorToken)
    (he : isAnchorEnd e) (heos : eos.Typ = TokenType.ErrorToken) :
    LinkReader maxDepth ([tag] ++ middle ++ [e] ++ [eos]) d =
      if (Link.mk (TrimSpace (hrefValue tag)) (TrimSpace (textData middle)) d).Valid maxDepth then
        [Link.mk (TrimSpace (hrefValue tag)) (TrimSpace (textData middle)) d]
      else [] := by
  have h := LinkReader_segment maxDepth d [] middle [eos] tag e (fun t ht => by cases ht) htag ha
    (fun t ht => ⟨(hm t ht).2.1, (hm t ht).2.2⟩) he
  have hl : lastStart tag middle = tag :=
    lastStart_of_no_start tag middle (fun t ht hs => (hm t ht).1 hs.1)
  have heof : LinkReader maxDepth [eos] d = [] := by
    simp [LinkReader, LinkReader.run, heos, LinkReader.init]
  have hnil : LinkReader maxDepth [] d = [] := rfl
  have hshape : [tag] ++ middle ++ [e] ++ [eos] = [] ++ tag :: (middle ++ e :: [eos]) := by simp
  rw [hshape, h, hl, heof, hnil, NewLink_eq]
  simp [emit, LinkReader.run, LinkReader.init]

/-- The page `<a href="/x">foo<b>bar</b>baz</a>` at depth `0` gives the one link
with url `/x` and text `foobarbaz`. -/
theorem LinkReader_text_accumulation_witness :
    LinkReader MaxDepth
      ([anchorStart "/x".toList] ++
        [textToken "foo".toList, boldStart, textToken "bar".toList, boldEnd,
          textToken "baz".toList] ++ [anchorEnd] ++ [eofToken]) 0 =
      [{ url := "/x".toList, text := "foobarbaz".toList, depth := 0 }] :=
  (LinkReader_text_accumulation MaxDepth 0 (anchorStart "/x".toList) anchorEnd eofToken
    [textToken "foo".toList, boldStart, textToken "bar".toList, boldEnd, textToken "baz".toList]
    (by decide) (by decide) (by decide) (by decide) (by decide)).trans (by decide)

/-- C4, as the code has it: an anchor start tag leaves the gathered text as it
is (the text is emptied only at an anchor end tag met while an anchor is open).
So when no anchor is open after `p`, the text of the link emitted at the next
anchor end tag is the trimmed concatenation of all text tokens after the first
anchor start tag with an attribute that follows `p`, whatever further anchor
start tags come in between. -/
theorem LinkReader_text_kept (maxDepth d : Int) (p middle rest : List Token) (tag e : Token)
    (hp : noError p)
    (hclosed : (LinkReader.run maxDepth d LinkReader.init p).start = none)
    (htag : isAnchorStart tag) (ha : tag.Attr ≠ [])
    (hm : ∀ t ∈ middle, ¬ isAnchorEnd t ∧ t.Typ ≠ TokenType.ErrorToken)
    (he : isAnchorEnd e) :
    (∀ (st : LinkReader.State) (t : Token), isAnchorStart t →
      (LinkReader.step maxDepth d st t).text = st.text) ∧
    LinkReader maxDepth (p ++ [tag] ++ middle ++ [e] ++ rest) d =
      LinkReader maxDepth p d ++
        emit maxDepth
          { url := TrimSpace (hrefValue (lastStart tag middle)),
            text := TrimSpace (textData middle), depth := d } ++
        LinkReader maxDepth rest d := by
  refine ⟨fun st t ht => step_start_text maxDepth d st t ht, ?_⟩
  have h := LinkReader_segment maxDepth d p middle rest tag e hp htag ha hm he
  have htext : (LinkReader.run maxDepth d LinkReader.init p).text = [] :=
    run_text_nil maxDepth d p LinkReader.init (fun _ => rfl) hclosed
  have hshape : p ++ [tag] ++ middle ++ [e] ++ rest = p ++ tag :: (middle ++ e :: rest) := by simp
  rw [hshape, h, htext, List.nil_append, NewLink_eq]

/-- On `<a href="/x">foo<a href="/y">bar</a>` the one link has the url `/y` and
the text `foobar`. -/
theorem LinkReader_text_kept_witness :
    LinkReader MaxDepth
      ([] ++ [anchorStart "/x".toList] ++
        [textToken "foo".toList, anchorStart "/y".toList, textToken "bar".toList] ++
        [anchorEnd] ++ []) 0 =
      [{ url := "/y".toList, text := "foobar".toList, depth := 0 }] :=
  ((LinkReader_text_kept MaxDepth 0 []
    [textToken "foo".toList, anchorStart "/y".toList, textToken "bar".toList] []
    (anchorStart "/x".toList) anchorEnd (by decide) (by decide) (by decide) (by decide)
    (by decide) (by decide)).2).trans (by decide)

/-- C4 as stated fails: on `<a href="/x">foo<a href="/y">bar</a>` the text of
the link is `foobar`, not `bar`, and the second start tag, read with the text
`foo` gathered, leaves that text in place. -/
theorem LinkReader_text_reset_counterexample :
    LinkReader MaxDepth
        [anchorStart "/x".toList, textToken "foo".toList, anchorStart "/y".toList,
          textToken "bar".toList, anchorEnd] 0 =
      [{ url := "/y".toList, text := "foobar".toList, depth := 0 }] ∧
    (∀ l ∈ LinkReader MaxDepth
        [anchorStart "/x".toList, textToken "foo".toList, anchorStart "/y".toList,
          textToken "bar".toList, anchorEnd] 0, l.text ≠ "bar".toList) ∧
    (LinkReader.step MaxDepth 0
        { start := some (anchorStart "/x".toList), text := "foo".toList, links := [] }
        (anchorStart "/y".toList)).text = "foo".toList := by
  decide

/-- C5: the url of the link emitted at an anchor end tag is the trimmed href
value of the last anchor start tag with an attribute before it, whatever was
read before that start tag: the tokens before it add the links they completed
and nothing else, so an earlier start tag left open gives neither the url nor a
link of its own. -/
theorem LinkReader_last_start_wins (maxDepth d : Int) (p post rest : List Token) (tag e : Token)
    (hp : noError p) (htag : isAnchorStart tag) (ha : tag.Attr ≠ [])
    (hpost : ∀ t ∈ post, ¬ (isAnchorStart t ∧ t.Attr ≠ []) ∧ ¬ isAnchorEnd t ∧
      t.Typ ≠ TokenType.ErrorToken)
    (he : isAnchorEnd e) :
    LinkReader maxDepth (p ++ [tag] ++ post ++ [e] ++ rest) d =
      LinkReader maxDepth p d ++
        emit maxDepth
          { url := TrimSpace (hrefValue tag),
            text := TrimSpace ((LinkReader.run maxDepth d LinkReader.init p).text ++ textData post),
            depth := d } ++
        LinkReader maxDepth rest d := by
  have h := LinkReader_segment maxDepth d p post rest tag e hp htag ha
    (fun t ht => ⟨(hpost t ht).2.1, (hpost t ht).2.2⟩) he
  have hl : lastStart tag post = tag :=
    lastStart_of_no_start tag post (fun t ht => (hpost t ht).1)
  have hshape : p ++ [tag] ++ post ++ [e] ++ rest = p ++ tag :: (post ++ e :: rest) := by simp
  rw [hshape, h, hl, NewLink_eq]

/-- On `<a href="/x">foo<a href="/y">bar</a>` there is exactly one link and its
url is `/y`. -/
theorem LinkReader_last_start_wins_witness :
    (LinkReader MaxDepth
      ([anchorStart "/x".toList, textToken "foo".toList] ++ [anchorStart "/y".toList] ++
        [textToken "bar".toList] ++ [anchorEnd] ++ []) 0).map Link.url = ["/y".toList] :=
  (congrArg (List.map Link.url)
    (LinkReader_last_start_wins MaxDepth 0 [anchorStart "/x".toList, textToken "foo".toList]
      [textToken "bar".toList] [] (anchorStart "/y".toList) anchorEnd (by decide) (by decide)
      (by decide) (by decide) (by decide))).trans (by decide)

/-- C6: an anchor end tag met while no anchor is open adds no link and changes
nothing of what follows: at the head of a page, and after any tokens `p` that
leave no anchor open. -/
theorem LinkReader_orphan_end (maxDepth d : Int) (p ts : List Token) (e : Token)
    (he : isAnchorEnd e)
    (hclosed : (LinkReader.run maxDepth d LinkReader.init p).start = none) :
    LinkReader maxDepth ([e] ++ ts) d = LinkReader maxDepth ts d ∧
      LinkReader maxDepth (p ++ [e] ++ ts) d = LinkReader maxDepth (p ++ ts) d := by
  constructor
  · exact congrArg LinkReader.State.links
      (run_insert_end maxDepth d [] ts e LinkReader.init he rfl)
  · rw [List.append_assoc]
    exact congrArg LinkReader.State.links
      (run_insert_end maxDepth d p ts e LinkReader.init he hclosed)

/-- An anchor end tag put after `<a href="/x">foo</a>` leaves the two links of
`<a href="/x">foo</a><a href="/y">bar</a>` as they are. -/
theorem LinkReader_orphan_end_witness :
    LinkReader MaxDepth
      ([anchorStart "/x".toList, textToken "foo".toList, anchorEnd] ++ [anchorEnd] ++
        [anchorStart "/y".toList, textToken "bar".toList, anchorEnd]) 0 =
      [{ url := "/x".toList, text := "foo".toList, depth := 0 },
        { url := "/y".toList, text := "bar".toList, depth := 0 }] :=
  ((LinkReader_orphan_end MaxDepth 0 [anchorStart "/x".toList, textToken "foo".toList, anchorEnd]
    [anchorStart "/y".toList, textToken "bar".toList, anchorEnd] anchorEnd (by decide)
    (by decide)).2).trans (by decide)

/-- C7: an anchor start tag without attributes is ignored: taking it out of a
page, wherever it stands, leaves the result of `LinkReader` unchanged, and
`<a>link</a>` gives no link. -/
theorem LinkReader_bare_anchor (maxDepth d : Int) (p s : List Token) (t : Token)
    (ht : isAnchorStart t) (ha : t.Attr = []) :
    LinkReader maxDepth (p ++ [t] ++ s) d = LinkReader maxDepth (p ++ s) d ∧
      LinkReader maxDepth [t, textToken "link".toList, anchorEnd] d = [] := by
  constructor
  · rw [List.append_assoc]
    exact congrArg LinkReader.State.links
      (run_insert_bare maxDepth d p s t LinkReader.init ht ha)
  · have h := congrArg LinkReader.State.links
      (run_insert_bare maxDepth d [] [textToken "link".toList, anchorEnd] t LinkReader.init ht ha)
    have h2 : LinkReader maxDepth [textToken "link".toList, anchorEnd] d = [] := by
      simp [LinkReader, LinkReader.run, LinkReader.step, LinkReader.init, textToken, anchorEnd,
        atom.A]
    exact h.trans h2

/-- The page `<a href="/x">foo<a>bar</a>` gives the same link as
`<a href="/x">foobar</a>`, and `<a>link</a>` gives none. -/
theorem LinkReader_bare_anchor_witness :
    LinkReader MaxDepth
        ([anchorStart "/x".toList, textToken "foo".toList] ++ [anchorBare] ++
          [textToken "bar".toList, anchorEnd]) 0 =
      [{ url := "/x".toList, text := "foobar".toList, depth := 0 }] ∧
    LinkReader MaxDepth [anchorBare, textToken "link".toList, anchorEnd] 0 = [] :=
  ⟨((LinkReader_bare_anchor MaxDepth 0 [anchorStart "/x".toList, textToken "foo".toList]
      [textToken "bar".toList, anchorEnd] anchorBare (by decide) (by decide)).1).trans (by decide),
    (LinkReader_bare_anchor MaxDepth 0 [] [] anchorBare (by decide) (by decide)).2⟩

/-- C8: after an anchor end tag no anchor is open and no text is kept, whether
or not a link was emitted, so the links of what follows are those of a fresh
pass over it, put after the links found so far. -/
theorem LinkReader_after_end (maxDepth d : Int) (p s : List Token) (e : Token)
    (hp : noError p) (he : isAnchorEnd e) :
    ((LinkReader.run maxDepth d LinkReader.init (p ++ [e])).start = none ∧
      (LinkReader.run maxDepth d LinkReader.init (p ++ [e])).text = []) ∧
    LinkReader maxDepth (p ++ [e] ++ s) d =
      LinkReader maxDepth (p ++ [e]) d ++ LinkReader maxDepth s d := by
  have hc := run_end_cleared maxDepth d p e hp he
  refine ⟨hc, ?_⟩
  have hpe : noError (p ++ [e]) := by
    intro t ht
    rcases List.mem_append.mp ht with h | h
    · exact hp t h
    · rw [List.mem_singleton] at h
      rw [h]; exact isAnchorEnd_ne_error e he
  rw [LinkReader_append _ _ _ _ hpe]
  have hst : LinkReader.run maxDepth d LinkReader.init (p ++ [e]) =
      { start := none, text := [], links := LinkReader maxDepth (p ++ [e]) d } := by
    cases hrun : LinkReader.run maxDepth d LinkReader.init (p ++ [e]) with
    | mk start text links =>
      rw [hrun] at hc
      simp only at hc
      rw [hc.1, hc.2, LinkReader, hrun]
  rw [hst, run_closed_links]

/-- In `<a href="javascript:f()">x</a>y</a>` the first end tag clears the state
though no link is emitted, the second end tag is an orphan, and no link
comes out. -/
theorem LinkReader_after_end_witness :
    LinkReader MaxDepth
      ([anchorStart "javascript:f()".toList, textToken "x".toList] ++ [anchorEnd] ++
        [textToken "y".toList, anchorEnd]) 0 = [] :=
  ((LinkReader_after_end MaxDepth 0 [anchorStart "javascript:f()".toList, textToken "x".toList]
    [textToken "y".toList, anchorEnd] anchorEnd (by decide) (by decide)).2).trans (by decide)

/-- C9: a link of depth `n >= 0` is rendered as `n` tab characters, the text,
` (`, `n` in decimal, `) - ` and the url; the link with url `/x`, text `Home`
and depth `1` is rendered as a tab followed by `Home (1) - /x`. -/
theorem Link_String_render :
    (∀ (url text : List Char) (n : Nat),
      (Link.mk url text (n : Int)).String =
        some (List.replicate n '\t' ++ text ++ " (".toList ++ (Nat.repr n).toList ++
          ") - ".toList ++ url)) ∧
    (Link.mk "/x".toList "Home".toList 1).String = some "\tHome (1) - /x".toList := by
  constructor
  · intro url text n
    have hneg : ¬ ((n : Int) < 0) := by omega
    simp [Link.String, Repeat, formatInt, hneg, Nat.repr, List.asString]
  · decide

/-! ## The traversal driver -/

theorem LinkReader_depth_lt (maxDepth depth : Int) (page : List Token) (l : Link)
    (hl : l ∈ LinkReader maxDepth page depth) : depth < maxDepth := by
  obtain ⟨tag, text, rfl, hv⟩ := LinkReader_mem maxDepth depth page l hl
  have h := ((Valid_iff maxDepth _).mp hv).1
  rwa [NewLink_depth] at h

theorem LinkReader_nil_of_le (maxDepth depth : Int) (page : List Token) (h : maxDepth ≤ depth) :
    LinkReader maxDepth page depth = [] := by
  rw [List.eq_nil_iff_forall_not_mem]
  intro l hl
  have := LinkReader_depth_lt maxDepth depth page l hl
  omega

theorem addInt_one (d : Int) (h1 : -(2 ^ 63) ≤ d) (h2 : d + 1 < 2 ^ 63) : addInt d 1 = d + 1 := by
  unfold addInt
  omega

theorem addInt_one_ge (d : Int) (h2 : d + 1 < 2 ^ 63) : d + 1 ≤ addInt d 1 := by
  unfold addInt
  omega

theorem printed_append (a b : List Event) : printed (a ++ b) = printed a ++ printed b := by
  induction a with
  | nil => rfl
  | cons e a ih =>
    cases e <;> simp [printed, ih]

theorem loop_printed (recur : List Char → Int → Option (List Event)) (maxDepth depth : Int)
    (links : List Link)
    (h : ∀ l ∈ links, addInt depth 1 < maxDepth → ∃ b, recur l.url (addInt depth 1) = some b) :
    ∃ evs, recurDownloader.loop recur maxDepth depth links = some evs ∧
      printed evs = preorder (fun u => linesOf (recur u (addInt depth 1)))
        (decide (addInt depth 1 < maxDepth)) links := by
  induction links with
  | nil => exact ⟨[], rfl, rfl⟩
  | cons l rest ih =>
    obtain ⟨after, ha, hpa⟩ := ih (fun x hx => h x (List.mem_cons_of_mem l hx))
    rw [recurDownloader.loop]
    by_cases hlt : addInt depth 1 < maxDepth
    · obtain ⟨b, hb⟩ := h l (List.mem_cons_self l rest) hlt
      rw [if_pos hlt, hb, ha]
      refine ⟨_, rfl, ?_⟩
      simp [printed, printed_append, preorder, hlt, hb, linesOf, hpa]
    · rw [if_neg hlt, ha]
      refine ⟨_, rfl, ?_⟩
      simp [printed, preorder, hlt, hpa]

theorem recurDownloaderFuel_returns (get : List Char → Except (List Char) Response)
    (maxDepth : Int) (hM : maxDepth < 2 ^ 63) (n : Nat) :
    ∀ (url : List Char) (depth : Int), (maxDepth - depth).toNat ≤ n →
      ∃ evs, recurDownloaderFuel get maxDepth (n + 1) url depth = some evs := by
  induction n with
  | zero =>
    intro url depth hn
    rw [recurDownloaderFuel]
    cases hdl : downloader get url with
    | error err => exact ⟨_, rfl⟩
    | ok page =>
      have hnil : LinkReader maxDepth page.Body depth = [] :=
        LinkReader_nil_of_le maxDepth depth page.Body (by omega)
      simp only [hnil, recurDownloader.loop]
      exact ⟨_, rfl⟩
  | succ m ih =>
    intro url depth hn
    rw [recurDownloaderFuel]
    cases hdl : downloader get url with
    | error err => exact ⟨_, rfl⟩
    | ok page =>
      simp only
      obtain ⟨evs, hevs, -⟩ := loop_printed (recurDownloaderFuel get maxDepth (m + 1)) maxDepth depth
        (LinkReader maxDepth page.Body depth) (by
          intro l hl hlt
          have hd := LinkReader_depth_lt maxDepth depth page.Body l hl
          have hge := addInt_one_ge depth (by omega)
          exact ih l.url (addInt depth 1) (by omega))
      rw [hevs]
      exact ⟨_, rfl⟩

theorem recurDownloader_returns (get : List Char → Except (List Char) Response)
    (maxDepth : Int) (hM : maxDepth < 2 ^ 63) (url : List Char) (depth : Int) :
    ∃ evs, recurDownloader get maxDepth url depth = some evs :=
  recurDownloaderFuel_returns get maxDepth hM _ url depth (le_refl _)

theorem loop_mono (recur recur2 : List Char → Int → Option (List Event)) (maxDepth depth : Int)
    (h : ∀ u k b, recur u k = some b → recur2 u k = some b) (links : List Link) :
    ∀ evs, recurDownloader.loop recur maxDepth depth links = some evs →
      recurDownloader.loop recur2 maxDepth depth links = some evs := by
  induction links with
  | nil => intro evs he; exact he
  | cons l rest ih =>
    intro evs he
    rw [recurDownloader.loop] at he ⊢
    by_cases hlt : addInt depth 1 < maxDepth
    · rw [if_pos hlt] at he ⊢
      cases hb : recur l.url (addInt depth 1) with
      | none => rw [hb] at he; cases he
      | some below =>
        cases ha : recurDownloader.loop recur maxDepth depth rest with
        | none => rw [hb, ha] at he; cases he
        | some after =>
          rw [hb, ha] at he
          rw [h _ _ _ hb, ih _ ha]
          exact he
    · rw [if_neg hlt] at he ⊢
      cases ha : recurDownloader.loop recur maxDepth depth rest with
      | none => rw [ha] at he; cases he
      | some after =>
        rw [ha] at he
        rw [ih _ ha]
        exact he

theorem recurDownloaderFuel_succ (get : List Char → Except (List Char) Response)
    (maxDepth : Int) (fuel : Nat) :
    ∀ (url : List Char) (depth : Int) (evs : List Event),
      recurDownloaderFuel get maxDepth fuel url depth = some evs →
        recurDownloaderFuel get maxDepth (fuel + 1) url depth = some evs := by
  induction fuel with
  | zero => intro url depth evs h; cases h
  | succ f ih =>
    intro url depth evs h
    rw [recurDownloaderFuel] at h ⊢
    cases hdl : downloader get url with
    | error err => rw [hdl] at h; exact h
    | ok page =>
      rw [hdl] at h
      simp only at h ⊢
      cases hl : recurDownloader.loop (recurDownloaderFuel get maxDepth f) maxDepth depth
          (LinkReader maxDepth page.Body depth) with
      | none => rw [hl] at h; cases h
      | some found =>
        rw [hl] at h
        rw [loop_mono _ (recurDownloaderFuel get maxDepth (f + 1)) maxDepth depth ih _ _ hl]
        exact h

theorem recurDownloaderFuel_add (get : List Char → Except (List Char) Response)
    (maxDepth : Int) (fuel k : Nat) (url : List Char) (depth : Int) (evs : List Event)
    (h : recurDownloaderFuel get maxDepth fuel url depth = some evs) :
    recurDownloaderFuel get maxDepth (fuel + k) url depth = some evs := by
  induction k with
  | zero => exact h
  | succ k ih => exact recurDownloaderFuel_succ get maxDepth (fuel + k) url depth evs ih

theorem recurDownloaderFuel_enough (get : List Char → Except (List Char) Response)
    (maxDepth : Int) (url : List Char) (depth : Int) (evs : List Event)
    (h : recurDownloader get maxDepth url depth = some evs) (fuel : Nat)
    (hf : (maxDepth - depth).toNat < fuel) :
    recurDownloaderFuel get maxDepth fuel url depth = some evs := by
  have hk : fuel = (maxDepth - depth).toNat + 1 + (fuel - ((maxDepth - depth).toNat + 1)) := by
    omega
  rw [hk]
  exact recurDownloaderFuel_add get maxDepth _ _ url depth evs h

theorem String_eq_Println (l : Link) (h : 0 ≤ l.depth) : l.String = some (Println l) := by
  have hneg : ¬ (l.depth < 0) := by omega
  simp [Println, Link.String, Repeat, hneg]

theorem LinkReader_depth_eq (maxDepth depth : Int) (page : List Token) (l : Link)
    (hl : l ∈ LinkReader maxDepth page depth) : l.depth = depth := by
  obtain ⟨tag, text, rfl, -⟩ := LinkReader_mem maxDepth depth page l hl
  exact NewLink_depth tag text depth

/-- C10: when the fetch of `url` succeeds with the page `page`, the call
`recurDownloader(url, d)` returns (with the same events under every bound on the
recursion above `MaxDepth - d`), and the lines it writes are, for each link of
`LinkReader(page, d)` in turn, the line of the link followed by the lines of
`recurDownloader(link.url, d+1)` when `d+1 < MaxDepth` and by nothing
otherwise; every such recursive call returns, and for `d >= 0` the line of a
link is the result of `Link.String`. -/
theorem recurDownloader_preorder (get : List Char → Except (List Char) Response)
    (maxDepth d : Int) (url : List Char) (page : Response)
    (hM : isInt64 maxDepth) (hd : isInt64 d) (hok : downloader get url = Except.ok page) :
    (∀ u, ∃ below, recurDownloader get maxDepth u (d + 1) = some below) ∧
    ∃ evs, recurDownloader get maxDepth url d = some evs ∧
      (∀ fuel, (maxDepth - d).toNat < fuel →
        recurDownloaderFuel get maxDepth fuel url d = some evs) ∧
      printed evs =
        preorder (fun u => linesOf (recurDownloader get maxDepth u (d + 1)))
          (decide (d + 1 < maxDepth)) (LinkReader maxDepth page.Body d) ∧
      (0 ≤ d → ∀ l ∈ LinkReader maxDepth page.Body d, l.String = some (Println l)) := by
  obtain ⟨hM1, hM2⟩ := hM
  obtain ⟨hd1, hd2⟩ := hd
  refine ⟨fun u => recurDownloader_returns get maxDepth hM2 u (d + 1), ?_⟩
  suffices hmain : ∃ evs, recurDownloader get maxDepth url d = some evs ∧
      printed evs =
        preorder (fun u => linesOf (recurDownloader get maxDepth u (d + 1)))
          (decide (d + 1 < maxDepth)) (LinkReader maxDepth page.Body d) ∧
      (0 ≤ d → ∀ l ∈ LinkReader maxDepth page.Body d, l.String = some (Println l)) by
    obtain ⟨evs, h1, h2⟩ := hmain
    exact ⟨evs, h1, fun fuel hf => recurDownloaderFuel_enough get maxDepth url d evs h1 fuel hf, h2⟩
  have hstr : 0 ≤ d → ∀ l ∈ LinkReader maxDepth page.Body d, l.String = some (Println l) := by
    intro h0 l hl
    apply String_eq_Println
    rw [LinkReader_depth_eq maxDepth d page.Body l hl]
    exact h0
  by_cases hlt : d < maxDepth
  · have hadd : addInt d 1 = d + 1 := addInt_one d hd1 (by omega)
    have hfuel : (maxDepth - d).toNat = (maxDepth - (d + 1)).toNat + 1 := by omega
    obtain ⟨evs, hevs, hpr⟩ := loop_printed
      (recurDownloaderFuel get maxDepth ((maxDepth - (d + 1)).toNat + 1)) maxDepth d
      (LinkReader maxDepth page.Body d) (by
        intro l _ _
        rw [hadd]
        exact recurDownloader_returns get maxDepth hM2 l.url (d + 1))
    refine ⟨Event.fetch url :: evs, ?_, ?_, hstr⟩
    · rw [recurDownloader, hfuel, recurDownloaderFuel, hok]
      simp only [hevs]
    · rw [hadd] at hpr
      simp only [printed, hpr]
      rfl
  · have hnil : LinkReader maxDepth page.Body d = [] :=
      LinkReader_nil_of_le maxDepth d page.Body (by omega)
    refine ⟨[Event.fetch url], ?_, ?_, hstr⟩
    · rw [recurDownloader, recurDownloaderFuel, hok]
      simp only [hnil, recurDownloader.loop]
    · rw [hnil]
      rfl

/-- On the site of `siteGet` the crawl from `/` writes the line of `foo`, below
it the line of the link found on `/x`, then the line of `bar`. -/
theorem recurDownloader_preorder_witness :
    ∃ evs, recurDownloader siteGet MaxDepth "/".toList 0 = some evs ∧
      printed evs =
        ["foo (0) - /x".toList, "\tzed (1) - /z".toList, "bar (0) - /y".toList] := by
  obtain ⟨-, evs, h1, -, h2, -⟩ := recurDownloader_preorder siteGet MaxDepth 0 "/".toList
    { StatusCode := 200, Body :=
      [anchorStart "/x".toList, textToken "foo".toList, anchorEnd,
        anchorStart "/y".toList, textToken "bar".toList, anchorEnd] }
    (by decide) (by decide) rfl
  exact ⟨evs, h1, h2.trans (by decide)⟩

/-! ## The steps behind the events of the traversal -/

theorem stepsLoop_event (recurS : List Char → Int → Option (List Step))
    (recur : List Char → Int → Option (List Event)) (maxDepth depth : Int)
    (h : ∀ u k, (recurS u k).map (List.map Step.event) = recur u k) (links : List Link) :
    (recurDownloaderSteps.loop recurS maxDepth depth links).map (List.map Step.event) =
      recurDownloader.loop recur maxDepth depth links := by
  induction links with
  | nil => rfl
  | cons l rest ih =>
    rw [recurDownloaderSteps.loop, recurDownloader.loop, ← ih, ← h]
    by_cases hlt : addInt depth 1 < maxDepth
    · rw [if_pos hlt, if_pos hlt]
      cases recurS l.url (addInt depth 1) with
      | none => rfl
      | some below =>
        cases recurDownloaderSteps.loop recurS maxDepth depth rest with
        | none => rfl
        | some after => simp [Step.event]
    · rw [if_neg hlt, if_neg hlt]
      cases recurDownloaderSteps.loop recurS maxDepth depth rest with
      | none => rfl
      | some after => simp [Step.event]

theorem recurDownloaderSteps_event (get : List Char → Except (List Char) Response)
    (maxDepth : Int) (fuel : Nat) :
    ∀ (url : List Char) (depth : Int),
      (recurDownloaderSteps get maxDepth fuel url depth).map (List.map Step.event) =
        recurDownloaderFuel get maxDepth fuel url depth := by
  induction fuel with
  | zero => intro url depth; rfl
  | succ f ih =>
    intro url depth
    rw [recurDownloaderSteps, recurDownloaderFuel]
    cases downloader get url with
    | error err => rfl
    | ok page =>
      simp only
      rw [← stepsLoop_event (recurDownloaderSteps get maxDepth f)
        (recurDownloaderFuel get maxDepth f) maxDepth depth ih]
      cases recurDownloaderSteps.loop (recurDownloaderSteps get maxDepth f) maxDepth depth
          (LinkReader maxDepth page.Body depth) with
      | none => rfl
      | some steps => rfl

theorem stepsLoop_bound (recurS : List Char → Int → Option (List Step)) (maxDepth depth : Int)
    (hM : maxDepth < 2 ^ 63) (hd : -(2 ^ 63) ≤ depth)
    (hrec : ∀ u steps, recurS u (depth + 1) = some steps →
      ∃ rest, steps = Step.call u (depth + 1) :: rest ∧
        (∀ l, Step.print l ∈ rest → depth + 1 ≤ l.depth ∧ l.depth < maxDepth) ∧
        (∀ v k, Step.call v k ∈ rest → depth + 1 < k ∧ k < maxDepth))
    (links : List Link) (hlinks : ∀ l ∈ links, l.depth = depth ∧ depth < maxDepth) :
    ∀ steps, recurDownloaderSteps.loop recurS maxDepth depth links = some steps →
      (∀ l, Step.print l ∈ steps → depth ≤ l.depth ∧ l.depth < maxDepth) ∧
      (∀ v k, Step.call v k ∈ steps → depth < k ∧ k < maxDepth) := by
  induction links with
  | nil =>
    intro steps h
    rw [recurDownloaderSteps.loop] at h
    cases h
    exact ⟨fun l hl => (by cases hl), fun v k hk => (by cases hk)⟩
  | cons l rest ih =>
    intro steps h
    obtain ⟨hld, hlt⟩ := hlinks l (List.mem_cons_self l rest)
    have hadd : addInt depth 1 = depth + 1 := addInt_one depth hd (by omega)
    have ihr := ih (fun x hx => hlinks x (List.mem_cons_of_mem l hx))
    rw [recurDownloaderSteps.loop, hadd] at h
    by_cases hg : depth + 1 < maxDepth
    · rw [if_pos hg] at h
      cases hb : recurS l.url (depth + 1) with
      | none => rw [hb] at h; cases h
      | some below =>
        cases ha : recurDownloaderSteps.loop recurS maxDepth depth rest with
        | none => rw [hb, ha] at h; cases h
        | some after =>
          rw [hb, ha] at h
          simp only [Option.some.injEq] at h
          subst h
          obtain ⟨brest, rfl, hbp, hbc⟩ := hrec l.url below hb
          obtain ⟨hap, hac⟩ := ihr after ha
          constructor
          · intro x hx
            simp only [List.mem_cons, List.mem_append, List.cons_append, Step.print.injEq,
              reduceCtorEq, false_or] at hx
            rcases hx with rfl | hx | hx
            · omega
            · have := hbp x hx; omega
            · exact hap x hx
          · intro v k hk
            simp only [List.mem_cons, List.mem_append, List.cons_append, Step.call.injEq,
              reduceCtorEq, false_or] at hk
            rcases hk with ⟨-, rfl⟩ | hk | hk
            · omega
            · have := hbc v k hk; omega
            · exact hac v k hk
    · rw [if_neg hg] at h
      cases ha : recurDownloaderSteps.loop recurS maxDepth depth rest with
      | none => rw [ha] at h; cases h
      | some after =>
        rw [ha] at h
        simp only [Option.some.injEq] at h
        subst h
        obtain ⟨hap, hac⟩ := ihr after ha
        constructor
        · intro x hx
          simp only [List.mem_cons, Step.print.injEq] at hx
          rcases hx with rfl | hx
          · omega
          · exact hap x hx
        · intro v k hk
          simp only [List.mem_cons, reduceCtorEq, false_or] at hk
          exact hac v k hk

theorem recurDownloaderSteps_bound (get : List Char → Except (List Char) Response)
    (maxDepth : Int) (hM : maxDepth < 2 ^ 63) (fuel : Nat) :
    ∀ (url : List Char) (depth : Int) (steps : List Step), -(2 ^ 63) ≤ depth →
      recurDownloaderSteps get maxDepth fuel url depth = some steps →
      ∃ rest, steps = Step.call url depth :: rest ∧
        (∀ l, Step.print l ∈ rest → depth ≤ l.depth ∧ l.depth < maxDepth) ∧
        (∀ v k, Step.call v k ∈ rest → depth < k ∧ k < maxDepth) := by
  induction fuel with
  | zero => intro url depth steps _ h; cases h
  | succ f ih =>
    intro url depth steps hd h
    rw [recurDownloaderSteps] at h
    cases hdl : downloader get url with
    | error err =>
      rw [hdl] at h
      simp only [Option.some.injEq] at h
      subst h
      refine ⟨_, rfl, ?_, ?_⟩
      · intro l hl; simp at hl
      · intro v k hk; simp at hk
    | ok page =>
      rw [hdl] at h
      simp only at h
      cases hl : recurDownloaderSteps.loop (recurDownloaderSteps get maxDepth f) maxDepth depth
          (LinkReader maxDepth page.Body depth) with
      | none => rw [hl] at h; cases h
      | some found =>
        rw [hl] at h
        simp only [Option.some.injEq] at h
        subst h
        refine ⟨found, rfl, ?_⟩
        exact stepsLoop_bound (recurDownloaderSteps get maxDepth f) maxDepth depth hM hd
          (fun u steps hs => ih u (depth + 1) steps (by omega) hs)
          (LinkReader maxDepth page.Body depth)
          (fun l hl => ⟨LinkReader_depth_eq maxDepth depth page.Body l hl,
            LinkReader_depth_lt maxDepth depth page.Body l hl⟩)
          found hl

theorem recurDownloaderSteps_returns (get : List Char → Except (List Char) Response)
    (maxDepth : Int) (fuel : Nat) (url : List Char) (depth : Int) (evs : List Event)
    (h : recurDownloaderFuel get maxDepth fuel url depth = some evs) :
    ∃ steps, recurDownloaderSteps get maxDepth fuel url depth = some steps ∧
      steps.map Step.event = evs := by
  have he := recurDownloaderSteps_event get maxDepth fuel url depth
  rw [h] at he
  cases hs : recurDownloaderSteps get maxDepth fuel url depth with
  | none => rw [hs] at he; cases he
  | some steps =>
    rw [hs] at he
    simp only [Option.map_some', Option.some.injEq] at he
    exact ⟨steps, rfl, he⟩

/-- C11: in the crawl `recurDownloader(seed, 0)`, which returns, every link
written has a depth `k` with `0 <= k < MaxDepth`, and every call
`recurDownloader(u, k)` made below the seed call has `0 < k < MaxDepth`: no
link of depth `MaxDepth` or more is written or followed. The steps are those
behind the events of `recurDownloader(seed, 0)`, the first being the seed call. -/
theorem recurDownloader_depth_bound (get : List Char → Except (List Char) Response)
    (maxDepth : Int) (seed : List Char) (hM : isInt64 maxDepth) :
    ∃ steps rest,
      recurDownloaderSteps get maxDepth ((maxDepth - 0).toNat + 1) seed 0 = some steps ∧
      recurDownloader get maxDepth seed 0 = some (steps.map Step.event) ∧
      steps = Step.call seed 0 :: rest ∧
      (∀ l, Step.print l ∈ rest → 0 ≤ l.depth ∧ l.depth < maxDepth) ∧
      (∀ u k, Step.call u k ∈ rest → 0 < k ∧ k < maxDepth) := by
  obtain ⟨evs, hevs⟩ := recurDownloader_returns get maxDepth hM.2 seed 0
  obtain ⟨steps, hs, hmap⟩ := recurDownloaderSteps_returns get maxDepth _ seed 0 evs hevs
  obtain ⟨rest, hr, hp, hc⟩ := recurDownloaderSteps_bound get maxDepth hM.2 _ seed 0 steps
    (by norm_num) hs
  exact ⟨steps, rest, hs, (by rw [hmap]; exact hevs), hr, hp, hc⟩

/-- On the site of `siteGet` the crawl from `/` makes, below the seed call, the
one call at depth `1` for `/x` and the one for `/y`, and writes links of depth
`0` and `1` only. -/
theorem recurDownloader_depth_bound_witness :
    ∃ steps rest,
      recurDownloaderSteps siteGet MaxDepth ((MaxDepth - 0).toNat + 1) "/".toList 0 = some steps ∧
      recurDownloader siteGet MaxDepth "/".toList 0 = some (steps.map Step.event) ∧
      steps = Step.call "/".toList 0 :: rest ∧
      (∀ l, Step.print l ∈ rest → 0 ≤ l.depth ∧ l.depth < MaxDepth) ∧
      (∀ u k, Step.call u k ∈ rest → 0 < k ∧ k < MaxDepth) ∧
      rest =
        [Step.print { url := "/x".toList, text := "foo".toList, depth := 0 },
          Step.call "/x".toList 1,
          Step.print { url := "/z".toList, text := "zed".toList, depth := 1 },
          Step.print { url := "/y".toList, text := "bar".toList, depth := 0 },
          Step.call "/y".toList 1,
          Step.fail (Err.transport "no such host".toList)] := by
  obtain ⟨steps, rest, h1, h2, h3, h4, h5⟩ :=
    recurDownloader_depth_bound siteGet MaxDepth "/".toList (by decide)
  refine ⟨steps, rest, h1, h2, h3, h4, h5, ?_⟩
  have hc : recurDownloaderSteps siteGet MaxDepth ((MaxDepth - 0).toNat + 1) "/".toList 0 =
      some (Step.call "/".toList 0 ::
        [Step.print { url := "/x".toList, text := "foo".toList, depth := 0 },
          Step.call "/x".toList 1,
          Step.print { url := "/z".toList, text := "zed".toList, depth := 1 },
          Step.print { url := "/y".toList, text := "bar".toList, depth := 0 },
          Step.call "/y".toList 1,
          Step.fail (Err.transport "no such host".toList)]) := by decide
  rw [h1, h3] at hc
  simpa using hc

theorem fetches_print_map (links : List Link) :
    fetches (links.map (fun l => Event.print (Println l))) = [] := by
  induction links with
  | nil => rfl
  | cons l rest ih => simpa [fetches] using ih

theorem loop_of_not_deeper (recur : List Char → Int → Option (List Event)) (maxDepth depth : Int)
    (h : ¬ addInt depth 1 < maxDepth) (links : List Link) :
    recurDownloader.loop recur maxDepth depth links =
      some (links.map (fun l => Event.print (Println l))) := by
  induction links with
  | nil => rfl
  | cons l rest ih => rw [recurDownloader.loop, if_neg h, ih]; rfl

theorem loop_last_level (recur : List Char → Int → Option (List Event)) (maxDepth depth : Int)
    (hM : isInt64 maxDepth) (hd : isInt64 depth) (h : maxDepth ≤ depth + 1) (page : List Token) :
    recurDownloader.loop recur maxDepth depth (LinkReader maxDepth page depth) =
      some ((LinkReader maxDepth page depth).map (fun l => Event.print (Println l))) := by
  by_cases hlt : depth < maxDepth
  · have hadd : addInt depth 1 = depth + 1 := addInt_one depth hd.1 (by have := hM.2; omega)
    exact loop_of_not_deeper recur maxDepth depth (by rw [hadd]; omega) _
  · rw [LinkReader_nil_of_le maxDepth depth page (by omega)]
    rfl

/-- C12: a call `recurDownloader(url, d)` with `d+1 >= MaxDepth`, as the call at
depth `MaxDepth-1` is, sends exactly one request, the one for `url`, however
many links the page holds: when the fetch succeeds the events are that request
followed by one line for each link of the page, and the result is the same
under every bound on the recursion. -/
theorem recurDownloader_last_level (get : List Char → Except (List Char) Response)
    (maxDepth d : Int) (url : List Char) (hM : isInt64 maxDepth) (hd : isInt64 d)
    (h : maxDepth ≤ d + 1) :
    ∃ evs, recurDownloader get maxDepth url d = some evs ∧
      (∀ fuel, recurDownloaderFuel get maxDepth (fuel + 1) url d = some evs) ∧
      fetches evs = [url] ∧
      (∀ page, downloader get url = Except.ok page →
        evs = Event.fetch url ::
          (LinkReader maxDepth page.Body d).map (fun l => Event.print (Println l))) := by
  have hall : ∀ fuel, recurDownloaderFuel get maxDepth (fuel + 1) url d =
      match downloader get url with
      | Except.error err => some [Event.fetch url, Event.logError err.Error]
      | Except.ok page => some (Event.fetch url ::
          (LinkReader maxDepth page.Body d).map (fun l => Event.print (Println l))) := by
    intro fuel
    rw [recurDownloaderFuel]
    cases downloader get url with
    | error err => rfl
    | ok page => simp only [loop_last_level _ maxDepth d hM hd h]
  cases hdl : downloader get url with
  | error err =>
    rw [hdl] at hall
    refine ⟨_, hall _, hall, rfl, ?_⟩
    intro page hp
    cases hp
  | ok page =>
    rw [hdl] at hall
    refine ⟨_, hall _, hall, ?_, ?_⟩
    · simp only [fetches, fetches_print_map]
    · intro page2 hp
      cases hp
      rfl

/-- On the site of `siteGet`, with `MaxDepth = 2`, the call for `/` at depth `1`
sends the one request for `/` though the page holds two links. -/
theorem recurDownloader_last_level_witness :
    ∃ evs, recurDownloader siteGet MaxDepth "/".toList 1 = some evs ∧
      fetches evs = ["/".toList] ∧ (printed evs).length = 2 := by
  obtain ⟨evs, h1, -, h3, h4⟩ := recurDownloader_last_level siteGet MaxDepth 1 "/".toList
    (by decide) (by decide) (by decide)
  refine ⟨evs, h1, h3, ?_⟩
  rw [h4 _ rfl]
  decide

theorem loop_congr (recur recur2 : List Char → Int → Option (List Event)) (maxDepth depth : Int)
    (h : ∀ u, addInt depth 1 < maxDepth → recur u (addInt depth 1) = recur2 u (addInt depth 1))
    (links : List Link) :
    recurDownloader.loop recur maxDepth depth links =
      recurDownloader.loop recur2 maxDepth depth links := by
  induction links with
  | nil => rfl
  | cons l rest ih =>
    rw [recurDownloader.loop, recurDownloader.loop, ih]
    by_cases hlt : addInt depth 1 < maxDepth
    · rw [if_pos hlt, if_pos hlt, h l.url hlt]
    · rw [if_neg hlt, if_neg hlt]

/-- C13: `recurDownloader` terminates for every url, every starting depth,
every `MaxDepth` and every transport: there is one list of events that the call
returns under every bound on the recursion above `MaxDepth - depth`. The loop
over the links calls `recurDownloader` at `depth+1` only, and only when
`depth+1 < MaxDepth` (it does not depend on what a call would do elsewhere);
when the page has a link, `depth+1` does not wrap and `MaxDepth - depth`
gets smaller in the call. -/
theorem recurDownloader_terminates (get : List Char → Except (List Char) Response)
    (maxDepth depth : Int) (url : List Char) (hM : isInt64 maxDepth) (hd : isInt64 depth) :
    (∃ evs, recurDownloader get maxDepth url depth = some evs ∧
      ∀ fuel, (maxDepth - depth).toNat < fuel →
        recurDownloaderFuel get maxDepth fuel url depth = some evs) ∧
    (∀ (recur recur2 : List Char → Int → Option (List Event)) (links : List Link),
      (∀ u, addInt depth 1 < maxDepth → recur u (addInt depth 1) = recur2 u (addInt depth 1)) →
        recurDownloader.loop recur maxDepth depth links =
          recurDownloader.loop recur2 maxDepth depth links) ∧
    (∀ page : List Token, LinkReader maxDepth page depth ≠ [] →
      addInt depth 1 = depth + 1 ∧
        (maxDepth - addInt depth 1).toNat < (maxDepth - depth).toNat) := by
  refine ⟨?_, fun recur recur2 links h => loop_congr recur recur2 maxDepth depth h links, ?_⟩
  · obtain ⟨evs, h⟩ := recurDownloader_returns get maxDepth hM.2 url depth
    exact ⟨evs, h, fun fuel hf => recurDownloaderFuel_enough get maxDepth url depth evs h fuel hf⟩
  · intro page hne
    obtain ⟨l, hl⟩ := List.exists_mem_of_ne_nil _ hne
    have hlt := LinkReader_depth_lt maxDepth depth page l hl
    have hadd : addInt depth 1 = depth + 1 := addInt_one depth hd.1 (by have := hM.2; omega)
    rw [hadd]
    exact ⟨rfl, by omega⟩

/-- On the site of `cycleGet`, where every page links to `/`, the crawl from
`/` ends, under every bound on the recursion above `2`, after the request at
depth `0` and the one at depth `1`. -/
theorem recurDownloader_terminates_witness :
    ∃ evs,
      (∀ fuel, (MaxDepth - 0).toNat < fuel →
        recurDownloaderFuel cycleGet MaxDepth fuel "/".toList 0 = some evs) ∧
      evs = [Event.fetch "/".toList, Event.print "home (0) - /".toList,
        Event.fetch "/".toList, Event.print "\thome (1) - /".toList] := by
  obtain ⟨⟨evs, h, hf⟩, -, -⟩ := recurDownloader_terminates cycleGet MaxDepth 0 "/".toList
    (by decide) (by decide)
  refine ⟨evs, hf, ?_⟩
  have hc : recurDownloader cycleGet MaxDepth "/".toList 0 =
      some [Event.fetch "/".toList, Event.print "home (0) - /".toList,
        Event.fetch "/".toList, Event.print "\thome (1) - /".toList] := by decide
  rw [h] at hc
  simpa using hc

theorem loop_printed_sublist (recur : List Char → Int → Option (List Event))
    (maxDepth depth : Int) (links : List Link) :
    ∀ evs, recurDownloader.loop recur maxDepth depth links = some evs →
      List.Sublist (links.map Println) (printed evs) := by
  induction links with
  | nil => intro evs _; exact List.nil_sublist _
  | cons l rest ih =>
    intro evs h
    rw [recurDownloader.loop] at h
    by_cases hlt : addInt depth 1 < maxDepth
    · rw [if_pos hlt] at h
      cases hb : recur l.url (addInt depth 1) with
      | none => rw [hb] at h; cases h
      | some below =>
        cases ha : recurDownloader.loop recur maxDepth depth rest with
        | none => rw [hb, ha] at h; cases h
        | some after =>
          rw [hb, ha] at h
          simp only [Option.some.injEq] at h
          subst h
          have hp : printed (Event.print (Println l) :: below ++ after) =
              Println l :: (printed below ++ printed after) := by
            rw [← printed_append]; rfl
          rw [List.map_cons, hp]
          exact List.Sublist.cons₂ _ (List.sublist_append_of_sublist_right (ih after ha))
    · rw [if_neg hlt] at h
      cases ha : recurDownloader.loop recur maxDepth depth rest with
      | none => rw [ha] at h; cases h
      | some after =>
        rw [ha] at h
        simp only [Option.some.injEq] at h
        subst h
        have hp : printed (Event.print (Println l) :: after) = Println l :: printed after := rfl
        rw [List.map_cons, hp]
        exact List.Sublist.cons₂ _ (ih after ha)

/-- C14: when the fetch of `url` fails, `recurDownloader(url, depth)` returns
after the one request, having written the error to the log and no line; when
it succeeds, the call returns and the lines of all links of the page are among
the lines written, in the order of the links, whatever the transport does with
the urls of the links. -/
theorem recurDownloader_failure_isolated (get : List Char → Except (List Char) Response)
    (maxDepth depth : Int) (url : List Char) (hM : isInt64 maxDepth) :
    (∀ err, downloader get url = Except.error err →
      ∃ evs, recurDownloader get maxDepth url depth = some evs ∧
        evs = [Event.fetch url, Event.logError err.Error] ∧
        printed evs = [] ∧ fetches evs = [url]) ∧
    (∀ page, downloader get url = Except.ok page →
      ∃ evs, recurDownloader get maxDepth url depth = some evs ∧
        List.Sublist ((LinkReader maxDepth page.Body depth).map Println) (printed evs)) := by
  constructor
  · intro err herr
    refine ⟨_, ?_, rfl, rfl, rfl⟩
    rw [recurDownloader, recurDownloaderFuel, herr]
  · intro page hok
    obtain ⟨evs, h⟩ := recurDownloader_returns get maxDepth hM.2 url depth
    refine ⟨evs, h, ?_⟩
    rw [recurDownloader, recurDownloaderFuel, hok] at h
    simp only at h
    cases hl : recurDownloader.loop
        (recurDownloaderFuel get maxDepth (maxDepth - depth).toNat) maxDepth depth
        (LinkReader maxDepth page.Body depth) with
    | none => rw [hl] at h; cases h
    | some found =>
      rw [hl] at h
      simp only [Option.some.injEq] at h
      subst h
      exact loop_printed_sublist _ maxDepth depth _ found hl

/-- On the site of `siteGet` the fetch of `/y` fails and the crawl for `/y`
writes nothing, while the crawl from `/` still writes the lines of both links
of the page, `foo` and `bar`, in this order. -/
theorem recurDownloader_failure_isolated_witness :
    (∃ evs, recurDownloader siteGet MaxDepth "/y".toList 1 = some evs ∧ printed evs = []) ∧
    (∃ evs, recurDownloader siteGet MaxDepth "/".toList 0 = some evs ∧
      List.Sublist ["foo (0) - /x".toList, "bar (0) - /y".toList] (printed evs)) := by
  constructor
  · obtain ⟨evs, h1, -, h3, -⟩ :=
      (recurDownloader_failure_isolated siteGet MaxDepth 1 "/y".toList (by decide)).1
        (Err.transport "no such host".toList) rfl
    exact ⟨evs, h1, h3⟩
  · obtain ⟨evs, h1, h2⟩ :=
      (recurDownloader_failure_isolated siteGet MaxDepth 0 "/".toList (by decide)).2
        { StatusCode := 200, Body :=
          [anchorStart "/x".toList, textToken "foo".toList, anchorEnd,
            anchorStart "/y".toList, textToken "bar".toList, anchorEnd] } rfl
    exact ⟨evs, h1, h2⟩

/-- C15: `downloader(url)` fails exactly when the transport fails or the status
code is `300` or more. In the second case the error is the `HttpError` with the
message `Error (<status>): <url>`, the status in decimal; in the first it is
the error of the transport; every status below `300` gives the response. So
the statuses `100` and `204` succeed and `404` fails. -/
theorem downloader_classification (get : List Char → Except (List Char) Response)
    (url : List Char) :
    ((∃ err, downloader get url = Except.error err) ↔
      ((∃ msg, get url = Except.error msg) ∨
        ∃ resp, get url = Except.ok resp ∧ 300 ≤ resp.StatusCode)) ∧
    (∀ (resp : Response) (n : Nat), get url = Except.ok resp → resp.StatusCode = (n : Int) →
      300 ≤ n →
        downloader get url = Except.error (Err.http
          { original := "Error (".toList ++ (Nat.repr n).toList ++ "): ".toList ++ url }) ∧
        (Err.http
          { original := "Error (".toList ++ (Nat.repr n).toList ++ "): ".toList ++ url }).Error =
          "Error (".toList ++ (Nat.repr n).toList ++ "): ".toList ++ url) ∧
    (∀ msg, get url = Except.error msg →
      downloader get url = Except.error (Err.transport msg) ∧
        (Err.transport msg).Error = msg) ∧
    (∀ resp, get url = Except.ok resp → resp.StatusCode < 300 →
      downloader get url = Except.ok resp) ∧
    downloader (fun _ => Except.ok { StatusCode := 100, Body := [] }) url =
      Except.ok { StatusCode := 100, Body := [] } ∧
    downloader (fun _ => Except.ok { StatusCode := 204, Body := [] }) url =
      Except.ok { StatusCode := 204, Body := [] } ∧
    downloader (fun _ => Except.ok { StatusCode := 404, Body := [] }) "/missing".toList =
      Except.error (Err.http { original := "Error (404): /missing".toList }) := by
  refine ⟨?_, ?_, ?_, ?_, rfl, rfl, rfl⟩
  · constructor
    · rintro ⟨err, h⟩
      unfold downloader at h
      cases hg : get url with
      | error msg => exact Or.inl ⟨msg, rfl⟩
      | ok resp =>
        rw [hg] at h
        simp only at h
        by_cases hs : resp.StatusCode > 299
        · exact Or.inr ⟨resp, rfl, by omega⟩
        · rw [if_neg hs] at h; cases h
    · rintro (⟨msg, h⟩ | ⟨resp, h, hs⟩)
      · exact ⟨Err.transport msg, by rw [downloader, h]⟩
      · have hs2 : resp.StatusCode > 299 := by omega
        refine ⟨Err.http
          { original := "Error (".toList ++ formatInt resp.StatusCode ++ "): ".toList ++ url }, ?_⟩
        rw [downloader, h]
        simp only [if_pos hs2]
  · intro resp n h hn h300
    have hs2 : resp.StatusCode > 299 := by omega
    have hneg : ¬ ((n : Int) < 0) := by omega
    refine ⟨?_, rfl⟩
    rw [downloader, h]
    simp only [if_pos hs2]
    rw [hn]
    simp [formatInt, hneg, Nat.repr, List.asString]
  · intro msg h
    exact ⟨by rw [downloader, h], rfl⟩
  · intro resp h hs
    have hs2 : ¬ resp.StatusCode > 299 := by omega
    rw [downloader, h]
    simp only [if_neg hs2]

/-! ## Counting the links of a page -/

theorem step_length_ends (maxDepth depth : Int) (st : LinkReader.State) (t : Token) :
    (LinkReader.step maxDepth depth st t).links.length ≤
      st.links.length + countEnds [t] := by
  by_cases h1 : isAnchorStart t
  · by_cases ha : t.Attr = []
    · rw [step_bare _ _ _ _ h1 ha]; omega
    · rw [step_start _ _ _ _ h1 ha]; simp
  · by_cases h2 : isAnchorEnd t
    · have hc : countEnds [t] = 1 := by simp [countEnds, h2]
      cases hs : st.start with
      | none => rw [step_end_closed _ _ _ _ h2 hs]; omega
      | some tag =>
        rw [step_end_open _ _ _ _ tag h2 hs, hc]
        simp only
        split <;> simp
    · rw [step_other _ _ _ _ h1 h2]; simp

theorem step_length_starts (maxDepth depth : Int) (st : LinkReader.State) (t : Token) :
    (LinkReader.step maxDepth depth st t).links.length +
        openCount (LinkReader.step maxDepth depth st t) ≤
      st.links.length + openCount st + countStarts [t] := by
  by_cases h1 : isAnchorStart t
  · by_cases ha : t.Attr = []
    · rw [step_bare _ _ _ _ h1 ha]; omega
    · have hc : countStarts [t] = 1 := by simp [countStarts, h1, ha]
      rw [step_start _ _ _ _ h1 ha, hc]
      simp only [openCount, Option.isSome_some, if_true]
      omega
  · by_cases h2 : isAnchorEnd t
    · cases hs : st.start with
      | none => rw [step_end_closed _ _ _ _ h2 hs]; omega
      | some tag =>
        rw [step_end_open _ _ _ _ tag h2 hs]
        simp only [openCount, hs, Option.isSome_some, Option.isSome_none, if_true]
        have hz : (if false = true then 1 else 0) = 0 := rfl
        rw [hz]
        split
        · rw [List.length_append, List.length_singleton]; omega
        · omega
    · rw [step_other _ _ _ _ h1 h2]
      simp only [openCount]
      omega

theorem countEnds_cons (t : Token) (ts : List Token) :
    countEnds (t :: ts) = countEnds [t] + countEnds ts := by
  simp only [countEnds, List.countP_cons, List.countP_nil]
  omega

theorem countStarts_cons (t : Token) (ts : List Token) :
    countStarts (t :: ts) = countStarts [t] + countStarts ts := by
  simp only [countStarts, List.countP_cons, List.countP_nil]
  omega

theorem run_length_ends (maxDepth depth : Int) (page : List Token) (st : LinkReader.State) :
    (LinkReader.run maxDepth depth st page).links.length ≤
      st.links.length + countEnds (beforeError page) := by
  induction page generalizing st with
  | nil => simp [LinkReader.run]
  | cons t ts ih =>
    rw [LinkReader.run, beforeError]
    by_cases ht : t.Typ = TokenType.ErrorToken
    · rw [if_pos ht, if_pos ht]; omega
    · rw [if_neg ht, if_neg ht, countEnds_cons]
      have h1 := ih (LinkReader.step maxDepth depth st t)
      have h2 := step_length_ends maxDepth depth st t
      omega

theorem run_length_starts (maxDepth depth : Int) (page : List Token) (st : LinkReader.State) :
    (LinkReader.run maxDepth depth st page).links.length +
        openCount (LinkReader.run maxDepth depth st page) ≤
      st.links.length + openCount st + countStarts (beforeError page) := by
  induction page generalizing st with
  | nil => simp [LinkReader.run, beforeError, countStarts]
  | cons t ts ih =>
    rw [LinkReader.run, beforeError]
    by_cases ht : t.Typ = TokenType.ErrorToken
    · rw [if_pos ht, if_pos ht]; omega
    · rw [if_neg ht, if_neg ht, countStarts_cons]
      have h1 := ih (LinkReader.step maxDepth depth st t)
      have h2 := step_length_starts maxDepth depth st t
      omega

theorem LinkReader_prefix (maxDepth depth : Int) (p s : List Token) (hp : noError p) :
    LinkReader maxDepth p depth <+: LinkReader maxDepth (p ++ s) depth := by
  rw [LinkReader_append _ _ _ _ hp]
  cases hrun : LinkReader.run maxDepth depth LinkReader.init p with
  | mk start text links =>
    rw [run_links_frame, LinkReader, hrun]
    exact List.prefix_append _ _

theorem LinkReader_stop (maxDepth depth : Int) (p rest : List Token) (eos : Token)
    (hp : noError p) (heos : eos.Typ = TokenType.ErrorToken) :
    LinkReader maxDepth (p ++ eos :: rest) depth = LinkReader maxDepth p depth := by
  rw [LinkReader_append _ _ _ _ hp, LinkReader.run, if_pos heos, LinkReader]

/-- C16: the links `LinkReader` returns are at most as many as the anchor end
tags before the first error token, and at most as many as the anchor start tags
with an attribute before it; a page without an anchor end tag, such as
`<a href="/x">foo`, gives no link; and the links of the tokens read so far are
kept, whatever follows: they are the result when the input ends there, and the
head of the result otherwise. -/
theorem LinkReader_length_le (maxDepth : Int) (page : List Token) (d : Int) :
    (LinkReader maxDepth page d).length ≤ countEnds (beforeError page) ∧
    (LinkReader maxDepth page d).length ≤ countStarts (beforeError page) ∧
    ((∀ t ∈ beforeError page, ¬ isAnchorEnd t) → LinkReader maxDepth page d = []) ∧
    (∀ s, noError page → LinkReader maxDepth page d <+: LinkReader maxDepth (page ++ s) d) ∧
    (∀ eos rest, noError page → eos.Typ = TokenType.ErrorToken →
      LinkReader maxDepth (page ++ eos :: rest) d = LinkReader maxDepth page d) ∧
    LinkReader maxDepth [anchorStart "/x".toList, textToken "foo".toList, eofToken] d = [] := by
  have h1 := run_length_ends maxDepth d page LinkReader.init
  have h2 := run_length_starts maxDepth d page LinkReader.init
  have hi : LinkReader.init.links.length = 0 := rfl
  have ho : openCount LinkReader.init = 0 := rfl
  refine ⟨?_, ?_, ?_, ?_, ?_, ?_⟩
  · rw [LinkReader]; omega
  · rw [LinkReader]; omega
  · intro hno
    have hz : countEnds (beforeError page) = 0 := by
      rw [countEnds, List.countP_eq_zero]
      intro t ht
      simpa using hno t ht
    rw [← List.length_eq_zero, LinkReader]
    omega
  · intro s hp
    exact LinkReader_prefix maxDepth d page s hp
  · intro eos rest hp heos
    exact LinkReader_stop maxDepth d page rest eos hp heos
  · have hz := run_length_ends maxDepth d
      [anchorStart "/x".toList, textToken "foo".toList, eofToken] LinkReader.init
    have hc : countEnds (beforeError
      [anchorStart "/x".toList, textToken "foo".toList, eofToken]) = 0 := by decide
    rw [← List.length_eq_zero, LinkReader]
    omega

/-! ## Counting the requests of a crawl -/

theorem fetchBound_pos (b n : Nat) : 1 ≤ fetchBound b n := by
  cases n with
  | zero => exact le_refl 1
  | succ n => rw [fetchBound]; omega

theorem fetchBound_eq_sum (b n : Nat) :
    fetchBound b n = Finset.sum (Finset.range (n + 1)) (fun i => b ^ i) := by
  induction n with
  | zero => simp [fetchBound]
  | succ n ih =>
    rw [fetchBound, ih, Finset.sum_range_succ' (fun i => b ^ i) (n + 1), Finset.mul_sum]
    simp only [pow_succ, pow_zero]
    rw [Nat.add_comm]
    congr 1
    apply Finset.sum_congr rfl
    intro i _
    rw [Nat.mul_comm]

theorem fetches_append (a b : List Event) : fetches (a ++ b) = fetches a ++ fetches b := by
  induction a with
  | nil => rfl
  | cons e a ih =>
    cases e <;> simp [fetches, ih]

theorem loop_fetches_le (recur : List Char → Int → Option (List Event)) (maxDepth depth : Int)
    (bound : Nat)
    (h : ∀ u evs, recur u (addInt depth 1) = some evs → (fetches evs).length ≤ bound)
    (links : List Link) :
    ∀ evs, recurDownloader.loop recur maxDepth depth links = some evs →
      (fetches evs).length ≤ links.length * bound := by
  induction links with
  | nil =>
    intro evs he
    rw [recurDownloader.loop] at he
    simp only [Option.some.injEq] at he
    subst he
    simp [fetches]
  | cons l rest ih =>
    intro evs he
    rw [recurDownloader.loop] at he
    by_cases hlt : addInt depth 1 < maxDepth
    · rw [if_pos hlt] at he
      cases hb : recur l.url (addInt depth 1) with
      | none => rw [hb] at he; cases he
      | some below =>
        cases ha : recurDownloader.loop recur maxDepth depth rest with
        | none => rw [hb, ha] at he; cases he
        | some after =>
          rw [hb, ha] at he
          simp only [Option.some.injEq] at he
          subst he
          have hf : fetches (Event.print (Println l) :: below ++ after) =
              fetches below ++ fetches after := by
            rw [← fetches_append]; rfl
          have h1 := h l.url below hb
          have h2 := ih after ha
          rw [hf, List.length_append, List.length_cons, Nat.succ_mul]
          omega
    · rw [if_neg hlt] at he
      cases ha : recurDownloader.loop recur maxDepth depth rest with
      | none => rw [ha] at he; cases he
      | some after =>
        rw [ha] at he
        simp only [Option.some.injEq] at he
        subst he
        have hf : fetches (Event.print (Println l) :: after) = fetches after := rfl
        have h2 := ih after ha
        rw [hf, List.length_cons, Nat.succ_mul]
        omega

theorem recurDownloaderFuel_fetches_le (get : List Char → Except (List Char) Response)
    (maxDepth : Int) (b : Nat) (hM : maxDepth < 2 ^ 63)
    (hb : ∀ u page k, downloader get u = Except.ok page →
      (LinkReader maxDepth page.Body k).length ≤ b)
    (fuel : Nat) :
    ∀ (url : List Char) (depth : Int) (evs : List Event), -(2 ^ 63) ≤ depth →
      recurDownloaderFuel get maxDepth fuel url depth = some evs →
        (fetches evs).length ≤ fetchBound b (maxDepth - depth - 1).toNat := by
  induction fuel with
  | zero => intro url depth evs _ h; cases h
  | succ f ih =>
    intro url depth evs hd h
    rw [recurDownloaderFuel] at h
    cases hdl : downloader get url with
    | error err =>
      rw [hdl] at h
      simp only [Option.some.injEq] at h
      subst h
      exact fetchBound_pos b _
    | ok page =>
      rw [hdl] at h
      simp only at h
      cases hl : recurDownloader.loop (recurDownloaderFuel get maxDepth f) maxDepth depth
          (LinkReader maxDepth page.Body depth) with
      | none => rw [hl] at h; cases h
      | some found =>
        rw [hl] at h
        simp only [Option.some.injEq] at h
        subst h
        have hf : fetches (Event.fetch url :: found) = url :: fetches found := rfl
        rw [hf, List.length_cons]
        by_cases hdeep : depth + 1 < maxDepth
        · have hadd : addInt depth 1 = depth + 1 := addInt_one depth hd (by omega)
          have hlev : (maxDepth - depth - 1).toNat = (maxDepth - (depth + 1) - 1).toNat + 1 := by
            omega
          have hloop := loop_fetches_le (recurDownloaderFuel get maxDepth f) maxDepth depth
            (fetchBound b (maxDepth - (depth + 1) - 1).toNat)
            (fun u evs hu => by
              rw [hadd] at hu
              exact ih u (depth + 1) evs (by omega) hu)
            (LinkReader maxDepth page.Body depth) found hl
          have hlen := hb url page depth hdl
          have hmul := Nat.mul_le_mul_right (fetchBound b (maxDepth - (depth + 1) - 1).toNat) hlen
          rw [hlev, fetchBound]
          omega
        · have hnone : fetches found = [] := by
            by_cases hlt : depth < maxDepth
            · have hadd : addInt depth 1 = depth + 1 := addInt_one depth hd (by omega)
              rw [loop_of_not_deeper _ maxDepth depth (by rw [hadd]; exact hdeep)] at hl
              simp only [Option.some.injEq] at hl
              rw [← hl]
              exact fetches_print_map _
            · rw [LinkReader_nil_of_le maxDepth depth page.Body (by omega),
                recurDownloader.loop] at hl
              simp only [Option.some.injEq] at hl
              rw [← hl]
              rfl
          rw [hnone]
          exact fetchBound_pos b _

theorem LinkReader_length_le_two (maxDepth k : Int) :
    (LinkReader maxDepth
      [anchorStart "/a".toList, textToken "left".toList, anchorEnd,
        anchorStart "/b".toList, textToken "right".toList, anchorEnd] k).length ≤ 2 := by
  have h := run_length_ends maxDepth k
    [anchorStart "/a".toList, textToken "left".toList, anchorEnd,
      anchorStart "/b".toList, textToken "right".toList, anchorEnd] LinkReader.init
  have hc : countEnds (beforeError
    [anchorStart "/a".toList, textToken "left".toList, anchorEnd,
      anchorStart "/b".toList, textToken "right".toList, anchorEnd]) = 2 := by decide
  rw [hc] at h
  exact h

theorem treeGet_links_le (maxDepth : Int) (u : List Char) (page : Response) (k : Int)
    (h : downloader treeGet u = Except.ok page) :
    (LinkReader maxDepth page.Body k).length ≤ 2 := by
  have hp : downloader treeGet u = Except.ok { StatusCode := 200, Body :=
      [anchorStart "/a".toList, textToken "left".toList, anchorEnd,
        anchorStart "/b".toList, textToken "right".toList, anchorEnd] } := rfl
  rw [hp] at h
  cases h
  exact LinkReader_length_le_two maxDepth k

/-- C17, as the code has it: when every fetched page gives at most `b` links,
the crawl `recurDownloader(seed, 0)` sends at most
`1 + b + b^2 + ... + b^(MaxDepth-1)` requests, and one request when
`MaxDepth <= 1`. -/
theorem recurDownloader_fetch_bound (get : List Char → Except (List Char) Response)
    (maxDepth : Int) (b : Nat) (seed : List Char) (hM : isInt64 maxDepth)
    (hb : ∀ u page k, downloader get u = Except.ok page →
      (LinkReader maxDepth page.Body k).length ≤ b) :
    ∃ evs, recurDownloader get maxDepth seed 0 = some evs ∧
      (fetches evs).length ≤
        Finset.sum (Finset.range ((maxDepth - 1).toNat + 1)) (fun i => b ^ i) ∧
      (maxDepth ≤ 1 → (fetches evs).length = 1) := by
  obtain ⟨evs, h⟩ := recurDownloader_returns get maxDepth hM.2 seed 0
  have hle := recurDownloaderFuel_fetches_le get maxDepth b hM.2 hb _ seed 0 evs (by norm_num) h
  have hlev : (maxDepth - 0 - 1).toNat = (maxDepth - 1).toNat := by omega
  rw [hlev, fetchBound_eq_sum] at hle
  refine ⟨evs, h, hle, ?_⟩
  intro h1
  have hz : (maxDepth - 1).toNat = 0 := by omega
  rw [hz] at hle
  simp only [zero_add, Finset.range_one, Finset.sum_singleton, pow_zero] at hle
  have hpos : 1 ≤ (fetches evs).length := by
    rw [recurDownloader, recurDownloaderFuel] at h
    cases hdl : downloader get seed with
    | error err =>
      rw [hdl] at h
      simp only [Option.some.injEq] at h
      subst h
      simp [fetches]
    | ok page =>
      rw [hdl] at h
      simp only at h
      cases hl : recurDownloader.loop (recurDownloaderFuel get maxDepth (maxDepth - 0).toNat)
          maxDepth 0 (LinkReader maxDepth page.Body 0) with
      | none => rw [hl] at h; cases h
      | some found =>
        rw [hl] at h
        simp only [Option.some.injEq] at h
        subst h
        simp [fetches]
  omega

/-- On the site of `treeGet`, with two links on every page and `MaxDepth = 3`,
the crawl sends `1 + 2 + 4 = 7` requests: the bound is reached. -/
theorem recurDownloader_fetch_bound_witness :
    ∃ evs, recurDownloader treeGet 3 "/".toList 0 = some evs ∧
      (fetches evs).length ≤ 7 ∧ (fetches evs).length = 7 := by
  obtain ⟨evs, h1, h2, -⟩ := recurDownloader_fetch_bound treeGet 3 2 "/".toList (by decide)
    (fun u page k h => treeGet_links_le 3 u page k h)
  refine ⟨evs, h1, h2, ?_⟩
  have hc : (recurDownloader treeGet 3 "/".toList 0).map (fun e => (fetches e).length) =
      some 7 := by decide
  rw [h1] at hc
  simpa using hc

/-- C17 as stated fails. With `MaxDepth = 3` and two links on every page
(`b = 2`) the crawl sends `7` requests, more than `b × MaxDepth = 6`; and with
the program's `MaxDepth = 2` and a transport that always fails (no page gives a
link, `b = 0`) the crawl sends one request, more than `b × MaxDepth = 0`. -/
theorem recurDownloader_fetch_bound_counterexample :
    ((∀ u page k, downloader treeGet u = Except.ok page →
        (LinkReader 3 page.Body k).length ≤ 2) ∧
      (recurDownloader treeGet 3 "/".toList 0).map (fun e => (fetches e).length) = some 7 ∧
      ¬ (7 ≤ 2 * 3)) ∧
    ((∀ u page k, downloader downGet u = Except.ok page →
        (LinkReader MaxDepth page.Body k).length ≤ 0) ∧
      (recurDownloader downGet MaxDepth "/".toList 0).map (fun e => (fetches e).length) =
        some 1 ∧
      ¬ (1 ≤ 0 * 2)) := by
  refine ⟨⟨fun u page k h => treeGet_links_le 3 u page k h, by decide, by decide⟩,
    ⟨?_, by decide, by decide⟩⟩
  intro u page k h
  have hp : downloader downGet u =
      Except.error (Err.transport "network is unreachable".toList) := rfl
  rw [hp] at h
  cases h

/-! ## The text kept by the loop of `LinkReader`, and the url of a link -/

theorem warning_eq (st : LinkReader.State) (e : Token) (w : List Char)
    (h : LinkReader.warning st e = some w) : st.start = none ∧ isAnchorEnd e ∧ w = st.text := by
  unfold LinkReader.warning at h
  by_cases ha : e.DataAtom = atom.A
  · simp only [ha, if_true] at h
    cases hty : e.Typ <;> rw [hty] at h <;> simp only [reduceCtorEq] at h
    cases hs : st.start with
    | none =>
      rw [hs] at h
      simp only [Option.isSome_none, Bool.false_and, Bool.false_eq_true, if_false,
        Option.some.injEq] at h
      exact ⟨rfl, ⟨hty, ha⟩, h.symm⟩
    | some tag => rw [hs] at h; simp at h
  · simp only [ha, if_false] at h
    cases h

theorem step_text_closed (maxDepth depth : Int) (st : LinkReader.State) (t : Token)
    (ht : t.Typ = TokenType.TextToken) (hs : st.start = none) :
    LinkReader.step maxDepth depth st t = st := by
  have h1 : ¬ isAnchorStart t := fun h => by rw [h.1] at ht; cases ht
  have h2 : ¬ isAnchorEnd t := fun h => by rw [h.1] at ht; cases ht
  rw [step_other _ _ _ _ h1 h2]
  cases st with
  | mk start text links =>
    simp only at hs
    subst hs
    simp

theorem run_insert_text (maxDepth depth : Int) (p s : List Token) (t : Token)
    (st : LinkReader.State) (ht : t.Typ = TokenType.TextToken)
    (hclosed : (LinkReader.run maxDepth depth st p).start = none) :
    LinkReader.run maxDepth depth st (p ++ t :: s) = LinkReader.run maxDepth depth st (p ++ s) := by
  by_cases hp : noError p
  · have hne : t.Typ ≠ TokenType.ErrorToken := by rw [ht]; decide
    rw [run_append _ _ _ _ _ hp, run_append _ _ _ _ _ hp, run_cons _ _ _ _ _ hne,
      step_text_closed _ _ _ _ ht hclosed]
  · rw [run_append_of_error _ _ _ _ _ hp, run_append_of_error _ _ _ _ _ hp]

/-- C18: after any tokens `p` of a page, when no anchor is open the gathered
text is empty. So the text of the warning for an anchor end tag without a start
tag is always empty, and a text token read while no anchor is open changes
nothing: the page without it gives the same links. -/
theorem LinkReader_closed_text_nil (maxDepth d : Int) (p : List Token) :
    ((LinkReader.run maxDepth d LinkReader.init p).start = none →
      (LinkReader.run maxDepth d LinkReader.init p).text = []) ∧
    (∀ e w, LinkReader.warning (LinkReader.run maxDepth d LinkReader.init p) e = some w →
      w = []) ∧
    (∀ t s, (LinkReader.run maxDepth d LinkReader.init p).start = none →
      t.Typ = TokenType.TextToken →
        LinkReader maxDepth (p ++ [t] ++ s) d = LinkReader maxDepth (p ++ s) d) ∧
    LinkReader.warning
      (LinkReader.run maxDepth d LinkReader.init [textToken "out".toList]) anchorEnd =
        some [] ∧
    LinkReader maxDepth
        [textToken "out".toList, anchorStart "/x".toList, textToken "in".toList, anchorEnd] d =
      emit maxDepth { url := "/x".toList, text := "in".toList, depth := d } := by
  have hinv := run_text_nil maxDepth d p LinkReader.init (fun _ => rfl)
  refine ⟨hinv, ?_, ?_, ?_, ?_⟩
  · intro e w hw
    obtain ⟨hs, -, rfl⟩ := warning_eq _ e w hw
    exact hinv hs
  · intro t s hs ht
    rw [List.append_assoc]
    exact congrArg LinkReader.State.links
      (run_insert_text maxDepth d p s t LinkReader.init ht hs)
  · rfl
  · have h := LinkReader_segment maxDepth d [textToken "out".toList] [textToken "in".toList] []
      (anchorStart "/x".toList) anchorEnd (by decide) (by decide) (by decide) (by decide)
      (by decide)
    have hshape : [textToken "out".toList, anchorStart "/x".toList, textToken "in".toList,
        anchorEnd] =
        [textToken "out".toList] ++
          anchorStart "/x".toList :: ([textToken "in".toList] ++ anchorEnd :: []) := rfl
    rw [hshape, h, NewLink_eq]
    have h1 : LinkReader maxDepth [textToken "out".toList] d = [] := rfl
    have h2 : LinkReader maxDepth [] d = [] := rfl
    have h3 : (LinkReader.run maxDepth d LinkReader.init [textToken "out".toList]).text = [] :=
      rfl
    have h4 : TrimSpace (hrefValue (lastStart (anchorStart "/x".toList)
        [textToken "in".toList])) = "/x".toList := by decide
    have h5 : TrimSpace ([] ++ textData [textToken "in".toList]) = "in".toList := by decide
    rw [h1, h2, h3, h4, h5, List.nil_append, List.append_nil]

theorem find_href_reverse (pre post : List Attribute) (a : Attribute)
    (ha : a.Key = "href".toList) (hpost : ∀ x ∈ post, x.Key ≠ "href".toList) :
    (pre ++ a :: post).reverse.find? (fun x => x.Key = "href".toList) = some a := by
  have hnone : post.reverse.find? (fun x => decide (x.Key = "href".toList)) = none := by
    rw [List.find?_eq_none]
    intro x hx
    simpa using hpost x (List.mem_reverse.mp hx)
  rw [List.reverse_append, List.reverse_cons, List.append_assoc, List.find?_append, hnone,
    List.singleton_append, List.find?_cons]
  simp [ha]

theorem find_href_none (attrs : List Attribute) (h : ∀ x ∈ attrs, x.Key ≠ "href".toList) :
    attrs.reverse.find? (fun x => x.Key = "href".toList) = none := by
  rw [List.find?_eq_none]
  intro x hx
  simpa using h x (List.mem_reverse.mp hx)

theorem hrefValue_none (tag : Token) (h : ∀ x ∈ tag.Attr, x.Key ≠ "href".toList) :
    hrefValue tag = [] := by
  rw [hrefValue, find_href_none tag.Attr h]

/-- C19: the url of the link `NewLink` builds is the trimmed value of the last
attribute of the tag whose key is exactly `href`, and the empty string when no
attribute has that key, in which case `LinkReader` emits no link for the
anchor (as for `<a name="top">Top</a>`); the text of the link is the trimmed
text and its depth the depth given. -/
theorem NewLink_href_selection (tag : Token) (text : List Char) (depth : Int) :
    (∀ pre a post, tag.Attr = pre ++ a :: post → a.Key = "href".toList →
      (∀ x ∈ post, x.Key ≠ "href".toList) → (NewLink tag text depth).url = TrimSpace a.Val) ∧
    ((∀ x ∈ tag.Attr, x.Key ≠ "href".toList) → (NewLink tag text depth).url = []) ∧
    (NewLink tag text depth).text = TrimSpace text ∧
    (NewLink tag text depth).depth = depth ∧
    (∀ (maxDepth : Int) (p post rest : List Token) (e : Token),
      (∀ x ∈ tag.Attr, x.Key ≠ "href".toList) → noError p → isAnchorStart tag → tag.Attr ≠ [] →
      (∀ t ∈ post, ¬ (isAnchorStart t ∧ t.Attr ≠ []) ∧ ¬ isAnchorEnd t ∧
        t.Typ ≠ TokenType.ErrorToken) →
      isAnchorEnd e →
        LinkReader maxDepth (p ++ [tag] ++ post ++ [e] ++ rest) depth =
          LinkReader maxDepth p depth ++ LinkReader maxDepth rest depth) ∧
    LinkReader MaxDepth
      [anchorWith [{ Namespace := [], Key := "name".toList, Val := "top".toList }],
        textToken "Top".toList, anchorEnd] 0 = [] ∧
    (NewLink (anchorWith [{ Namespace := [], Key := "href".toList, Val := " /1 ".toList },
        { Namespace := [], Key := "HREF".toList, Val := "/2".toList },
        { Namespace := [], Key := "href".toList, Val := "/3".toList },
        { Namespace := [], Key := "id".toList, Val := "/4".toList }]) text depth).url =
      "/3".toList := by
  refine ⟨?_, ?_, NewLink_text tag text depth, NewLink_depth tag text depth, ?_, by decide, ?_⟩
  · intro pre a post hattr ha hpost
    rw [NewLink_url, hrefValue, hattr, find_href_reverse pre post a ha hpost]
  · intro h
    rw [NewLink_url, hrefValue_none tag h, TrimSpace_nil]
  · intro maxDepth p post rest e hno hp htag hattr hpost he
    have h := LinkReader_segment maxDepth depth p post rest tag e hp htag hattr
      (fun t ht => ⟨(hpost t ht).2.1, (hpost t ht).2.2⟩) he
    have hl : lastStart tag post = tag :=
      lastStart_of_no_start tag post (fun t ht => (hpost t ht).1)
    have hshape : p ++ [tag] ++ post ++ [e] ++ rest = p ++ tag :: (post ++ e :: rest) := by simp
    have hemit : ∀ txt, emit maxDepth (NewLink tag txt depth) = [] := by
      intro txt
      have hv : (NewLink tag txt depth).Valid maxDepth = false := by
        rw [Bool.eq_false_iff]
        intro hv
        have h3 := ((Valid_iff maxDepth _).mp hv).2.2.1
        rw [NewLink_url, hrefValue_none tag hno, TrimSpace_nil] at h3
        exact h3 rfl
      rw [emit, hv]
      rfl
    rw [hshape, h, hl, hemit, List.append_nil]
  · rw [NewLink_url]
    decide

end Crawler
